import Mathlib

/-!
Verification of the golang-fp-utility library against its specification.

The repository is a small Go library of generic higher-order functions over
slices and maps (Map, Filter, Reduce, Sort, Distinct, GroupBy, ...) plus a
reflective nested-field resolver (GetField).  This file gives a shallow
embedding of the relevant functions and proves or refutes the frozen claims
about them.

Conventions of the embedding:
- Go slices are Lean lists; a Go map is modelled as an association list whose
  order stands for the (unspecified) iteration order of the map.
- reflect.Value is modelled by the inductive type Value below; the zero
  (invalid) reflect.Value is the constructor Value.invalid.
- Code that can panic is modelled in Option: none models a Go panic,
  some v a normal return of v.
- Fallible functions returning (T, error) are modelled in Except String T,
  with the exact error message strings the Go code produces.
- Machine integers do not overflow in any of the modelled code paths that
  the claims exercise; indices are Nat.
-/

/- ===================== Definitions ===================== -/

/-- Model of reflect.Value as used by GetField
(src/src/utility/higher-order-function-util.go and the reflection package in
src/grouping): a dynamic value is a primitive, a struct with named fields
(record), a slice (seq), a pointer, or the zero reflect.Value (invalid). -/
inductive Value where
  | str : String → Value
  | int : Int → Value
  | vbool : Bool → Value
  | record : List (String × Value) → Value
  | seq : List Value → Value
  | ptr : Option Value → Value
  | invalid : Value
deriving Repr

/-- Model of reflect.Value.IsValid: false exactly on the zero Value. -/
def isValidV : Value → Bool
  | .invalid => false
  | _ => true

/-- Model of reflect.Value.FieldByName on a struct value: the named field's
value, or the zero Value when no such field exists.  Go struct field names
are unique, so first-match lookup is exact. -/
def lookupField : List (String × Value) → String → Value
  | [], _ => .invalid
  | (n, v) :: rest, name => if n = name then v else lookupField rest name

mutual
/-- Model of one recursive call GetField(element.Index(i), name) made from the
slice branch of GetField, i.e. GetField with a single-segment path: dereference
a pointer once, then broadcast over a slice, look the field up on a struct, and
panic (none) when FieldByName is reached on any other kind — including the
zero Value, a pointer to a non-struct, and primitives. -/
def getOne : Value → String → Option Value
  | .seq xs, name => (getOneList xs name).map Value.seq
  | .record fields, name => some (lookupField fields name)
  | .ptr (some (.seq xs)), name => (getOneList xs name).map Value.seq
  | .ptr (some (.record fields)), name => some (lookupField fields name)
  | .ptr _, _ => none
  | _, _ => none

/-- The loop in the slice branch of GetField: resolve the single segment on
each element, keep the results whose IsValid is true, drop the rest; a panic
in any element propagates. -/
def getOneList : List Value → String → Option (List Value)
  | [], _ => some []
  | x :: rest, name =>
    match getOne x name with
    | none => none
    | some w =>
      match getOneList rest name with
      | none => none
      | some ws => some (if isValidV w then w :: ws else ws)
end

/-- Model of the pointer dereference step at the top of GetField's loop body:
element.Elem() when the kind is Ptr (a nil pointer gives the zero Value),
identity otherwise. -/
def derefOnce : Value → Value
  | .ptr (some v) => v
  | .ptr none => .invalid
  | v => v

/-- Model of the loop of GetField over the list of path segments.  Per
iteration: dereference a pointer once; if the current value is a slice,
broadcast only the current segment over the elements (the slice branch
returns immediately, so the remaining segments are discarded) and wrap the
collected results as a new slice; if it is a struct, continue with
FieldByName; any other kind reaches FieldByName and panics (none). -/
def getMany : Value → List String → Option Value
  | element, [] => some element
  | element, name :: rest =>
    match derefOnce element with
    | .seq xs => (getOneList xs name).map Value.seq
    | .record fields => getMany (lookupField fields name) rest
    | _ => none

/-- Model of strings.Split(fieldName, ".") — split on each dot, keeping empty
segments, with the empty string splitting to one empty segment. -/
def splitDotsAux : List Char → List Char → List String
  | [], acc => [String.mk acc.reverse]
  | c :: cs, acc =>
    if c = '.' then String.mk acc.reverse :: splitDotsAux cs []
    else splitDotsAux cs (c :: acc)

/-- See splitDotsAux. -/
def splitDots (s : String) : List String := splitDotsAux s.data []

/-- Model of GetField(element, fieldName): split the dotted path and walk the
segments.  Result: some v for a normal return (v may be Value.invalid, the
NotFound signal the callers test with IsValid), none for a panic. -/
def GetField (element : Value) (fieldName : String) : Option Value :=
  getMany element (splitDots fieldName)

mutual
/-- Structural depth of a Value, used only to supply sufficient fuel to the
spec-side resolver below. -/
def vdepth : Value → Nat
  | .str _ => 1
  | .int _ => 1
  | .vbool _ => 1
  | .record fields => vdepthFields fields + 1
  | .seq xs => vdepthList xs + 1
  | .ptr (some v) => vdepth v + 1
  | .ptr none => 1
  | .invalid => 1

/-- See vdepth. -/
def vdepthList : List Value → Nat
  | [] => 0
  | x :: xs => max (vdepth x) (vdepthList xs) + 1

/-- See vdepth. -/
def vdepthFields : List (String × Value) → Nat
  | [] => 0
  | (_, v) :: xs => max (vdepth v) (vdepthFields xs) + 1
end

/-- Modelled from the spec (section 4.1 FieldResolver), for comparison with
the code's GetField: the spec's resolver, when positioned on a Sequence,
resolves the entire remaining segment list (including the current segment)
against each element independently, collects the per-element results whose
resolution succeeded, and stops; a missing field on a Record is the NotFound
signal (Value.invalid), and resolution is total (never panics). -/
def getManySpecGo : Nat → Value → List String → Value
  | 0, _, _ => .invalid
  | _ + 1, element, [] => element
  | fuel + 1, element, name :: rest =>
    match derefOnce element with
    | .seq xs =>
      .seq ((xs.map (fun x => getManySpecGo fuel x (name :: rest))).filter (fun w => isValidV w))
    | .record fields => getManySpecGo fuel (lookupField fields name) rest
    | _ => .invalid

/-- Modelled from the spec: resolver entry point, with fuel large enough for
any actual traversal (each step either consumes a segment or descends into
the value). -/
def getFieldSpec (element : Value) (fieldName : String) : Value :=
  getManySpecGo (vdepth element + (splitDots fieldName).length + 1) element (splitDots fieldName)

/-- Resolution of a single segment on one broadcast element as the slice
branch of GetField keeps it: the field value when the element is a struct
that has the field, none (omitted) when the field is missing; non-struct
elements are out of scope of this helper (they would panic in the code). -/
def fieldOpt : Value → String → Option Value
  | .record fields, name =>
    match lookupField fields name with
    | .invalid => none
    | w => some w
  | _, _ => none

/-- True when the Value is a struct. -/
def isRecordV : Value → Bool
  | .record _ => true
  | _ => false

/-- Model of Distinct (src/src/utility/higher-order-function-util.go lines
294-304): single pass keeping the first occurrence of each element, with the
seen hash-set modelled as the list of already-kept elements. -/
def distinctAux [DecidableEq α] : List α → List α → List α
  | _, [] => []
  | seen, x :: rest =>
    if x ∈ seen then distinctAux seen rest
    else x :: distinctAux (x :: seen) rest

/-- Model of Distinct. -/
def Distinct [DecidableEq α] (slice : List α) : List α := distinctAux [] slice

set_option linter.unusedVariables false in
/-- Model of DistinctFunc (lines 307-317, identical in
src/collection/collection.go lines 115-125): the body is the same seen-set
loop as Distinct and never calls compareFunc. -/
def DistinctFunc [DecidableEq α] (slice : List α) (compareFunc : α → α → Bool) : List α :=
  distinctAux [] slice

/-- Message produced by errors.Wrap(err, fmt.Sprintf("error mapping at
index:'%v', error", idx)): the wrapper text, a colon and space, then the
wrapped cause. -/
def wrapIndexErr (idx : Nat) (cause : String) : String :=
  "error mapping at index:'" ++ Nat.repr idx ++ "', error: " ++ cause

/-- Loop of MapReturnWithError (src/src/utility/higher-order-function-util.go
lines 79-90, identical in src/collection/collection.go lines 145-156), with
idx the index of the current element: apply the mapping function in order and
return the wrapped error of the first failure, or the list of all results. -/
def mapRWEAux (f : α → Except String β) (idx : Nat) : List α → Except String (List β)
  | [] => .ok []
  | x :: rest =>
    match f x with
    | .error e => .error (wrapIndexErr idx e)
    | .ok y =>
      match mapRWEAux f (idx + 1) rest with
      | .error e => .error e
      | .ok ys => .ok (y :: ys)

/-- Model of MapReturnWithError — on the first failing element the error is
returned and the result slice is nil (no partial result). -/
def MapReturnWithError (source : List α) (f : α → Except String β) : Except String (List β) :=
  mapRWEAux f 0 source

/-- Model of grouped[key] = append(grouped[key], element) on the Go map
grouped, with the map as an association list in first-insertion key order
(the outcomes the claims observe do not depend on map iteration order). -/
def groupAdd [DecidableEq K] : List (K × List Value) → K → Value → List (K × List Value)
  | [], k, v => [(k, [v])]
  | (k', vs) :: rest, k, v =>
    if k' = k then (k', vs ++ [v]) :: rest
    else (k', vs) :: groupAdd rest k v

/-- First grouping loop of GroupBy1By1 (src/grouping/grouping.go lines 30-53,
identical in src/src/utility/higher-order-function-util.go lines 232-255):
per element resolve the field path, return the does-not-exist error when the
result is not valid, and otherwise append the element to the bucket of the
key obtained by the type assertion fieldValue.Interface().(K) — modelled by
castK, whose failure is a panic (none), as the unchecked assertion panics. -/
def groupPhase [DecidableEq K] (castK : Value → Option K) (fieldName : String) :
    List Value → List (K × List Value) → Option (Except String (List (K × List Value)))
  | [], g => some (.ok g)
  | v :: rest, g =>
    match GetField v fieldName with
    | none => none
    | some w =>
      if isValidV w then
        match castK w with
        | none => none
        | some k => groupPhase castK fieldName rest (groupAdd g k v)
      else some (.error ("groupBy: field " ++ fieldName ++ " does not exist"))

/-- Model of GroupBy1By1: group, then fail if any key collected more than one
element, else map each key to its single element.  (The code checks buckets
while iterating the Go map; whether an error is produced, and which message,
does not depend on that iteration order, so the first-insertion order of the
model is faithful for these observations.) -/
def GroupBy1By1 [DecidableEq K] (castK : Value → Option K) (slice : List Value)
    (fieldName : String) : Option (Except String (List (K × Value))) :=
  match groupPhase castK fieldName slice [] with
  | none => none
  | some (.error e) => some (.error e)
  | some (.ok grouped) =>
    if grouped.any (fun kv => 1 < kv.2.length) then
      some (.error ("groupBy: field " ++ fieldName ++ " is not unique"))
    else
      some (.ok (grouped.map (fun kv => (kv.1, kv.2.headD Value.invalid))))

/-- Proof-side helper: fold groupAdd over a list of key-element pairs. -/
def groupAddAll [DecidableEq K] (g : List (K × List Value)) (ps : List (K × Value)) :
    List (K × List Value) :=
  ps.foldl (fun g p => groupAdd g p.1 p.2) g

/-- Proof-side helper: the bucket collected for a key in the grouped
association list. -/
def bucketOf [DecidableEq K] : List (K × List Value) → K → List Value
  | [], _ => []
  | (k', vs) :: rest, k => if k' = k then vs else bucketOf rest k

/-- One element of the input slice resolves, via the field path, to a valid
value that the type assertion converts to the key k. -/
def resolvesTo [DecidableEq K] (castK : Value → Option K) (fieldName : String)
    (v : Value) (k : K) : Prop :=
  ∃ w, GetField v fieldName = some w ∧ isValidV w = true ∧ castK w = some k

/-- Type assertion fieldValue.Interface().(K) for K = int. -/
def castInt : Value → Option Int
  | .int n => some n
  | _ => none

section SortModel

variable {β : Type}

/-!
Model of the repository's Sort (src/src/utility/higher-order-function-util.go
lines 320-323, identical in src/collection/collection.go lines 96-99):

  func Sort[T any](list []T, less func(i, j int) bool) []T {
      sort.Slice(list, less)
      return list
  }

sort.Slice is Go standard library code (sort/slice.go with the generated
sort/zsortfunc.go, Go 1.19 and later): an in-place pattern-defeating
quicksort.  It is transcribed below function by function; every function
carries the original's name in its doc comment.  The slice being sorted is a
List with functional index access (idxD, out of range gives the default d —
the executions modelled never go out of range) and element swaps (swapGo).
Every call site of Sort in the repository passes a closure that compares the
current slice elements at the two indices, so the comparator is modelled as
an element comparator less applied to the values at the compared indices.
Fuel arguments bound loop iteration counts; they are sized so that they
never run out on the executions the Go code performs (each loop's iteration
count is bounded by the width of the index interval it scans).

The repository predates Go 1.19 toolchains only if built with an older
compiler; sort.Slice was an in-place, unstable quicksort there as well, so
the in-place and instability findings do not depend on the toolchain
version, only the concrete counterexample trace does.
-/

def idxD (d : β) (s : List β) (i : Nat) : β := s.getD i d

def swapGo (d : β) (s : List β) (i j : Nat) : List β :=
  (s.set i (idxD d s j)).set j (idxD d s i)

def insInner (less : β → β → Bool) (d : β) (a : Nat) : Nat → List β → List β
  | 0, s => s
  | j + 1, s =>
    if a ≤ j ∧ less (idxD d s (j + 1)) (idxD d s j) then
      insInner less d a j (swapGo d s (j + 1) j)
    else s

def insLoop (less : β → β → Bool) (d : β) (a b : Nat) : Nat → Nat → List β → List β
  | 0, _, s => s
  | n + 1, i, s =>
    if i < b then insLoop less d a b n (i + 1) (insInner less d a i s) else s

def insertionSortGo (less : β → β → Bool) (d : β) (a b : Nat) (s : List β) : List β :=
  insLoop less d a b (b - a) (a + 1) s

def siftDownGo (less : β → β → Bool) (d : β) (hi first : Nat) : Nat → Nat → List β → List β
  | 0, _, s => s
  | n + 1, root, s =>
    let child0 := 2 * root + 1
    if hi ≤ child0 then s
    else
      let child :=
        if child0 + 1 < hi ∧ less (idxD d s (first + child0)) (idxD d s (first + child0 + 1)) then
          child0 + 1
        else child0
      if less (idxD d s (first + root)) (idxD d s (first + child)) then
        siftDownGo less d hi first n child (swapGo d s (first + root) (first + child))
      else s

def heapBuild (less : β → β → Bool) (d : β) (hi first : Nat) : Nat → List β → List β
  | 0, s => s
  | i + 1, s => heapBuild less d hi first i (siftDownGo less d hi first (hi + 1) i s)

def heapPop (less : β → β → Bool) (d : β) (first : Nat) : Nat → List β → List β
  | 0, s => s
  | i + 1, s =>
    heapPop less d first i
      (siftDownGo less d i first (i + 2) 0 (swapGo d s first (first + i)))

def heapSortGo (less : β → β → Bool) (d : β) (a b : Nat) (s : List β) : List β :=
  heapPop less d a (b - a)
    (heapBuild less d (b - a) a ((b - a - 1) / 2 + 1) s)

def revRange (d : β) : Nat → Nat → Nat → List β → List β
  | 0, _, _, s => s
  | n + 1, i, j, s => if i < j then revRange d n (i + 1) (j - 1) (swapGo d s i j) else s

def reverseRangeGo (d : β) (a b : Nat) (s : List β) : List β :=
  revRange d (b - a) a (b - 1) s

def order2Go (less : β → β → Bool) (d : β) (s : List β) (a b : Nat) (sw : Nat) :
    Nat × Nat × Nat :=
  if less (idxD d s b) (idxD d s a) then (b, a, sw + 1) else (a, b, sw)

def medianGo (less : β → β → Bool) (d : β) (s : List β) (a b c : Nat) (sw : Nat) : Nat × Nat :=
  match order2Go less d s a b sw with
  | (a1, b1, sw1) =>
    match order2Go less d s b1 c sw1 with
    | (b2, _, sw2) =>
      match order2Go less d s a1 b2 sw2 with
      | (_, b3, sw3) => (b3, sw3)

def medianAdjGo (less : β → β → Bool) (d : β) (s : List β) (a : Nat) (sw : Nat) : Nat × Nat :=
  medianGo less d s (a - 1) a (a + 1) sw

inductive SortedHint where
  | increasing
  | decreasing
  | unknown
deriving DecidableEq, Repr

def choosePivotGo (less : β → β → Bool) (d : β) (a b : Nat) (s : List β) : Nat × SortedHint :=
  let l := b - a
  let i := a + l / 4 * 1
  let j := a + l / 4 * 2
  let k := a + l / 4 * 3
  if 8 ≤ l then
    let t :=
      if 50 ≤ l then
        let p1 := medianAdjGo less d s i 0
        let p2 := medianAdjGo less d s j p1.2
        let p3 := medianAdjGo less d s k p2.2
        (p1.1, p2.1, p3.1, p3.2)
      else (i, j, k, 0)
    let m := medianGo less d s t.1 t.2.1 t.2.2.1 t.2.2.2
    (m.1, if m.2 = 0 then SortedHint.increasing
          else if m.2 = 12 then SortedHint.decreasing else SortedHint.unknown)
  else (j, SortedHint.increasing)

def partSkipLt (less : β → β → Bool) (d : β) (aIdx : Nat) (s : List β) :
    Nat → Nat → Nat → Nat
  | 0, i, _ => i
  | n + 1, i, j =>
    if i ≤ j ∧ less (idxD d s i) (idxD d s aIdx) then partSkipLt less d aIdx s n (i + 1) j
    else i

def partSkipGe (less : β → β → Bool) (d : β) (aIdx : Nat) (s : List β) :
    Nat → Nat → Nat → Nat
  | 0, _, j => j
  | n + 1, i, j =>
    if i ≤ j ∧ ¬ less (idxD d s j) (idxD d s aIdx) then partSkipGe less d aIdx s n i (j - 1)
    else j

def partLoop (less : β → β → Bool) (d : β) (aIdx b : Nat) :
    Nat → Nat → Nat → List β → Nat × List β
  | 0, _, j, s => (j, s)
  | n + 1, i, j, s =>
    let i1 := partSkipLt less d aIdx s (b + 2) i j
    let j1 := partSkipGe less d aIdx s (b + 2) i1 j
    if i1 > j1 then (j1, s)
    else partLoop less d aIdx b n (i1 + 1) (j1 - 1) (swapGo d s i1 j1)

def partitionGo (less : β → β → Bool) (d : β) (a b pivot : Nat) (s : List β) :
    Nat × Bool × List β :=
  let s0 := swapGo d s a pivot
  let i1 := partSkipLt less d a s0 (b + 2) (a + 1) (b - 1)
  let j1 := partSkipGe less d a s0 (b + 2) i1 (b - 1)
  if i1 > j1 then (j1, true, swapGo d s0 j1 a)
  else
    let s1 := swapGo d s0 i1 j1
    let r := partLoop less d a b (b + 2) (i1 + 1) (j1 - 1) s1
    (r.1, false, swapGo d r.2 r.1 a)

def peSkipLe (less : β → β → Bool) (d : β) (aIdx : Nat) (s : List β) :
    Nat → Nat → Nat → Nat
  | 0, i, _ => i
  | n + 1, i, j =>
    if i ≤ j ∧ ¬ less (idxD d s aIdx) (idxD d s i) then peSkipLe less d aIdx s n (i + 1) j
    else i

def peSkipGt (less : β → β → Bool) (d : β) (aIdx : Nat) (s : List β) :
    Nat → Nat → Nat → Nat
  | 0, _, j => j
  | n + 1, i, j =>
    if i ≤ j ∧ less (idxD d s aIdx) (idxD d s j) then peSkipGt less d aIdx s n i (j - 1)
    else j

def peLoop (less : β → β → Bool) (d : β) (aIdx b : Nat) :
    Nat → Nat → Nat → List β → Nat × List β
  | 0, i, _, s => (i, s)
  | n + 1, i, j, s =>
    let i1 := peSkipLe less d aIdx s (b + 2) i j
    let j1 := peSkipGt less d aIdx s (b + 2) i1 j
    if i1 > j1 then (i1, s)
    else peLoop less d aIdx b n (i1 + 1) (j1 - 1) (swapGo d s i1 j1)

def partitionEqualGo (less : β → β → Bool) (d : β) (a b pivot : Nat) (s : List β) :
    Nat × List β :=
  peLoop less d a b (b + 2) (a + 1) (b - 1) (swapGo d s a pivot)

def pisAdvance (less : β → β → Bool) (d : β) (b : Nat) (s : List β) : Nat → Nat → Nat
  | 0, i => i
  | n + 1, i =>
    if i < b ∧ ¬ less (idxD d s i) (idxD d s (i - 1)) then pisAdvance less d b s n (i + 1)
    else i

def shiftLeftGo (less : β → β → Bool) (d : β) : Nat → Nat → List β → List β
  | 0, _, s => s
  | n + 1, j, s =>
    if 1 ≤ j then
      if less (idxD d s j) (idxD d s (j - 1)) then shiftLeftGo less d n (j - 1) (swapGo d s j (j - 1))
      else s
    else s

def shiftRightGo (less : β → β → Bool) (d : β) (b : Nat) : Nat → Nat → List β → List β
  | 0, _, s => s
  | n + 1, j, s =>
    if j < b then
      if less (idxD d s j) (idxD d s (j - 1)) then shiftRightGo less d b n (j + 1) (swapGo d s j (j - 1))
      else s
    else s

def pisLoop (less : β → β → Bool) (d : β) (a b : Nat) : Nat → Nat → List β → Bool × List β
  | 0, _, s => (false, s)
  | n + 1, i, s =>
    let i1 := pisAdvance less d b s (b + 1) i
    if i1 = b then (true, s)
    else if b - a < 50 then (false, s)
    else
      let s1 := swapGo d s i1 (i1 - 1)
      let s2 := if 2 ≤ i1 - a then shiftLeftGo less d i1 (i1 - 1) s1 else s1
      let s3 := if 2 ≤ b - i1 then shiftRightGo less d b (b - i1) (i1 + 1) s2 else s2
      pisLoop less d a b n i1 s3

def psInsertionSortGo (less : β → β → Bool) (d : β) (a b : Nat) (s : List β) : Bool × List β :=
  pisLoop less d a b 5 (a + 1) s

def bitsLenAux : Nat → Nat → Nat
  | 0, _ => 0
  | fuel + 1, n => if n = 0 then 0 else bitsLenAux fuel (n / 2) + 1

def bitsLen (n : Nat) : Nat := bitsLenAux n n

def xorshiftNext (r : Nat) : Nat :=
  let m := 18446744073709551616
  let r1 := (r ^^^ (r <<< 13)) % m
  let r2 := r1 ^^^ (r1 >>> 7)
  let r3 := (r2 ^^^ (r2 <<< 17)) % m
  r3

def nextPowTwo (length : Nat) : Nat := 1 <<< (bitsLen length)

def bpLoop (d : β) (aIdx length modulus idxm : Nat) : Nat → Nat → Nat → List β → List β
  | 0, _, _, s => s
  | n + 1, k, r, s =>
    let r1 := xorshiftNext r
    let other0 := r1 &&& (modulus - 1)
    let other := if length ≤ other0 then other0 - length else other0
    bpLoop d aIdx length modulus idxm n (k + 1) r1 (swapGo d s (idxm + k) (aIdx + other))

def breakPatternsGo (d : β) (a b : Nat) (s : List β) : List β :=
  let length := b - a
  if 8 ≤ length then
    bpLoop d a length (nextPowTwo length) (a + length / 4 * 2 - 1 - 1) 3 0 length s
  else s

def pdqsortGo (less : β → β → Bool) (d : β) :
    Nat → Nat → Nat → Nat → Bool → Bool → List β → List β
  | 0, _, _, _, _, _, s => s
  | fuel + 1, a, b, limit, wasBalanced, wasPartitioned, s =>
    let length := b - a
    if length ≤ 12 then insertionSortGo less d a b s
    else if limit = 0 then heapSortGo less d a b s
    else
      let sl := if wasBalanced then (s, limit) else (breakPatternsGo d a b s, limit - 1)
      let s := sl.1
      let limit := sl.2
      let ph := choosePivotGo less d a b s
      let trip :=
        if ph.2 = SortedHint.decreasing then
          (reverseRangeGo d a b s, (b - 1) - (ph.1 - a), SortedHint.increasing)
        else (s, ph.1, ph.2)
      let s := trip.1
      let pivot := trip.2.1
      let hint := trip.2.2
      let pis :=
        if wasBalanced ∧ wasPartitioned ∧ hint = SortedHint.increasing then
          psInsertionSortGo less d a b s
        else (false, s)
      if pis.1 then pis.2
      else
        let s := pis.2
        if 0 < a ∧ ¬ less (idxD d s (a - 1)) (idxD d s pivot) then
          let ms := partitionEqualGo less d a b pivot s
          pdqsortGo less d fuel ms.1 b limit wasBalanced wasPartitioned ms.2
        else
          let mps := partitionGo less d a b pivot s
          let mid := mps.1
          let s := mps.2.2
          let leftLen := mid - a
          let rightLen := b - mid
          let balanceThreshold := length / 8
          let wasBalanced := decide (balanceThreshold ≤ min leftLen rightLen)
          let wasPartitioned := mps.2.1
          if leftLen < rightLen then
            pdqsortGo less d fuel (mid + 1) b limit wasBalanced wasPartitioned
              (pdqsortGo less d fuel a mid limit true true s)
          else
            pdqsortGo less d fuel a mid limit wasBalanced wasPartitioned
              (pdqsortGo less d fuel (mid + 1) b limit true true s)

def sortSliceGo (less : β → β → Bool) (d : β) (x : List β) : List β :=
  pdqsortGo less d (x.length + 1) 0 x.length (bitsLen x.length) true true x

def SortGo (d : β) (list : List β) (less : β → β → Bool) : List β :=
  sortSliceGo less d list

/-- C2 counterexample input: thirteen key-tag pairs, compared by key only;
within every class of equal keys the tags increase left to right. -/
def ex13 : List (Nat × Nat) :=
  [(5,1),(9,1),(1,1),(5,2),(2,1),(8,1),(3,1),(4,1),(6,1),(7,1),(0,1),(9,2),(1,2)]

end SortModel

/- ===================== Theorems ===================== -/

/-- Concrete record whose field A holds a slice of structs, each with a
struct field B that in turn has field C. -/
def exBroadcast : Value := Value.record [("A", Value.seq
  [Value.record [("B", Value.record [("C", Value.int 1)])],
   Value.record [("B", Value.record [("C", Value.int 2)])]])]

/-- C3 counterexample: on the record above with path A.B.C, the code's
GetField broadcasts only the segment B over the slice and returns the B
values with the trailing segment C never applied, which differs from the
spec-side resolver that consumes the whole remaining path during the
broadcast. -/
theorem getField_discards_trailing_segments :
    GetField exBroadcast "A.B.C"
        = some (Value.seq [Value.record [("C", Value.int 1)],
                           Value.record [("C", Value.int 2)]])
      ∧ getFieldSpec exBroadcast "A.B.C" = Value.seq [Value.int 1, Value.int 2]
      ∧ GetField exBroadcast "A.B.C" ≠ some (getFieldSpec exBroadcast "A.B.C") := by
  refine ⟨rfl, rfl, ?_⟩
  intro h
  simp only [show GetField exBroadcast "A.B.C"
      = some (Value.seq [Value.record [("C", Value.int 1)],
                         Value.record [("C", Value.int 2)]]) from rfl,
    show getFieldSpec exBroadcast "A.B.C" = Value.seq [Value.int 1, Value.int 2] from rfl,
    Option.some.injEq, Value.seq.injEq, List.cons.injEq] at h
  exact Value.noConfusion h.1

/-- C3 amended: when GetField meets a slice mid-path it broadcasts only the
current segment over the elements and returns; the remaining segments are
discarded, so the result does not depend on them. -/
theorem getMany_seq_ignores_rest (xs : List Value) (name : String) (rest : List String) :
    getMany (Value.seq xs) (name :: rest) = getMany (Value.seq xs) [name] := rfl

/-- C5 failing input: a struct with only field Name, resolved with path
Missing.Sub — the missing first segment yields the zero Value and the next
iteration calls FieldByName on it, which panics (none) instead of returning
the NotFound signal. -/
theorem getField_panics_after_missing_segment :
    GetField (Value.record [("Name", Value.str "John")]) "Missing.Sub" = none := rfl

/-- Helper for C9: under the broadcast, a slice whose elements are all structs
collects exactly the defined field values, omitting elements on which the
field is missing, and never panics. -/
theorem getOneList_records (name : String) :
    ∀ (xs : List Value), (∀ x ∈ xs, isRecordV x = true) →
      getOneList xs name = some (xs.filterMap (fun x => fieldOpt x name)) := by
  intro xs
  induction xs with
  | nil => intro _; rfl
  | cons x rest ih =>
    intro h
    have hx : isRecordV x = true := h x (List.mem_cons_self x rest)
    have hrest := ih (fun y hy => h y (List.mem_cons_of_mem x hy))
    cases x with
    | record fields =>
      simp only [getOneList, getOne, hrest, List.filterMap_cons]
      cases hw : lookupField fields name with
      | invalid => simp [fieldOpt, hw, isValidV]
      | str s => simp [fieldOpt, hw, isValidV]
      | int n => simp [fieldOpt, hw, isValidV]
      | vbool b => simp [fieldOpt, hw, isValidV]
      | record f2 => simp [fieldOpt, hw, isValidV]
      | seq s2 => simp [fieldOpt, hw, isValidV]
      | ptr p => simp [fieldOpt, hw, isValidV]
    | str s => simp [isRecordV] at hx
    | int n => simp [isRecordV] at hx
    | vbool b => simp [isRecordV] at hx
    | seq s => simp [isRecordV] at hx
    | ptr p => simp [isRecordV] at hx
    | invalid => simp [isRecordV] at hx

/-- C9: when the resolver meets a slice mid-path whose elements are structs,
the broadcast silently omits the elements on which the sub-path does not
resolve (the result may be shorter than the input slice) and still returns
successfully — per-element failures are not propagated as an overall
failure. -/
theorem getField_broadcast_omits_failures (xs : List Value) (name : String)
    (rest : List String) (h : ∀ x ∈ xs, isRecordV x = true) :
    getMany (Value.seq xs) (name :: rest)
      = some (Value.seq (xs.filterMap (fun x => fieldOpt x name))) := by
  show (getOneList xs name).map Value.seq = _
  rw [getOneList_records name xs h]
  rfl

/-- C9 witness: two struct elements, the second lacking the field — the
broadcast returns the one resolved value and succeeds. -/
theorem getField_broadcast_omits_failures_witness :
    (∀ x ∈ [Value.record [("K", Value.int 1)], Value.record [("Other", Value.int 5)]],
      isRecordV x = true)
    ∧ getMany (Value.seq [Value.record [("K", Value.int 1)],
        Value.record [("Other", Value.int 5)]]) ["K", "Rest"]
      = some (Value.seq [Value.int 1]) :=
  ⟨by decide, getField_broadcast_omits_failures _ "K" ["Rest"] (by decide)⟩

/-- C1 failing input: DistinctFunc on the slice with the comparator that
judges every pair equal keeps both elements — the comparator is never
consulted, although the documented behavior (drop each later element the
comparator judges equal to a kept one) requires the result to be the first
element alone. -/
theorem distinctFunc_ignores_comparator_on_failing_input :
    DistinctFunc [1, 2] (fun _ _ => true) = [1, 2]
      ∧ DistinctFunc [1, 2] (fun _ _ => true) ≠ ([1] : List Nat) := by
  exact ⟨rfl, by decide⟩

/-- C10: the result of DistinctFunc does not depend on the supplied
comparator at all and coincides with Distinct. -/
theorem distinctFunc_eq_distinct [DecidableEq α] (slice : List α)
    (eq1 eq2 : α → α → Bool) :
    DistinctFunc slice eq1 = DistinctFunc slice eq2
      ∧ DistinctFunc slice eq1 = Distinct slice :=
  ⟨rfl, rfl⟩

/-- C10 witness at a concrete slice and two concrete comparators. -/
theorem distinctFunc_eq_distinct_witness :
    DistinctFunc [1, 2, 2, 3] (fun a b => decide (a < b))
        = DistinctFunc [1, 2, 2, 3] (fun _ _ => false)
      ∧ DistinctFunc [1, 2, 2, 3] (fun a b => decide (a < b)) = Distinct ([1, 2, 2, 3] : List Nat) :=
  distinctFunc_eq_distinct [1, 2, 2, 3] (fun a b => decide (a < b)) (fun _ _ => false)

/-- Helper for C7: the loop returns ok exactly along a pointwise-successful
run, for any starting index. -/
theorem mapRWEAux_ok {α β : Type} (f : α → Except String β) :
    ∀ {src : List α} {out : List β} (n : Nat),
      List.Forall₂ (fun x y => f x = .ok y) src out → mapRWEAux f n src = .ok out := by
  intro src out n h
  induction h generalizing n with
  | nil => rfl
  | cons hxy _ ih =>
    simp only [mapRWEAux, hxy, ih (n + 1)]

/-- Helper for C7: if every element before index i succeeds and the element
at i fails with cause e, the loop started at index n fails with the wrapped
error naming index n + i. -/
theorem mapRWEAux_error {α β : Type} (f : α → Except String β) :
    ∀ (src : List α) (i : Nat) (x : α) (e : String) (n : Nat),
      src[i]? = some x → (∀ y ∈ src.take i, (f y).isOk = true) → f x = .error e →
      mapRWEAux f n src = .error (wrapIndexErr (n + i) e) := by
  intro src
  induction src with
  | nil => intro i x e n h; simp at h
  | cons z rest ih =>
    intro i x e n hget hpre hfail
    cases i with
    | zero =>
      simp only [List.getElem?_cons_zero, Option.some.injEq] at hget
      subst hget
      simp only [mapRWEAux, hfail, Nat.add_zero]
    | succ i =>
      have hz : (f z).isOk = true := by
        apply hpre
        simp [List.take_succ_cons]
      cases hfz : f z with
      | error e' => rw [hfz] at hz; simp [Except.isOk, Except.toBool] at hz
      | ok y =>
        simp only [List.getElem?_cons_succ] at hget
        have hpre' : ∀ y ∈ rest.take i, (f y).isOk = true := by
          intro y hy
          exact hpre y (by simp [List.take_succ_cons, hy])
        have := ih i x e (n + 1) hget hpre' hfail
        simp only [mapRWEAux, hfz, this]
        have : n + 1 + i = n + (i + 1) := by omega
        rw [this]

/-- C7: MapReturnWithError applies the mapping function to the elements in
order; if every element succeeds it returns the full mapped list, and at the
first failing element it aborts with an error that wraps the cause and names
the zero-based failing index, returning no result list. -/
theorem mapReturnWithError_spec {α β : Type} (source : List α) (f : α → Except String β) :
    (∀ out, List.Forall₂ (fun x y => f x = .ok y) source out →
        MapReturnWithError source f = .ok out)
    ∧ (∀ i x e, source[i]? = some x →
        (∀ y ∈ source.take i, (f y).isOk = true) → f x = .error e →
        MapReturnWithError source f = .error (wrapIndexErr i e)) := by
  constructor
  · intro out h
    exact mapRWEAux_ok f 0 h
  · intro i x e hget hpre hfail
    have := mapRWEAux_error f source i x e 0 hget hpre hfail
    rwa [Nat.zero_add] at this

/-- C7 witness: the spec's example — mapping over [1,2,3,4,5] with a function
failing on 3 yields the error naming zero-based index 2 wrapping the cause. -/
theorem mapReturnWithError_spec_witness :
    MapReturnWithError [1, 2, 3, 4, 5]
        (fun x => if x = 3 then .error "fake error for 3" else .ok (x * 2))
      = .error "error mapping at index:'2', error: fake error for 3" :=
  (mapReturnWithError_spec [1, 2, 3, 4, 5]
      (fun x => if x = 3 then .error "fake error for 3" else .ok (x * 2))).2
    2 3 "fake error for 3" (by decide) (by decide) rfl

/-- Helper for C6: adding a fresh key appends a new singleton bucket. -/
theorem groupAdd_of_not_mem [DecidableEq K] (g : List (K × List Value)) (k : K) (v : Value)
    (h : k ∉ g.map Prod.fst) : groupAdd g k v = g ++ [(k, [v])] := by
  induction g with
  | nil => rfl
  | cons p rest ih =>
    obtain ⟨k', vs⟩ := p
    simp only [List.map_cons, List.mem_cons] at h
    push_neg at h
    simp only [groupAdd, if_neg (Ne.symm h.1), List.cons_append, List.cons.injEq, true_and]
    exact ih h.2

/-- Helper for C6: the bucket of the added key grows by the added element. -/
theorem bucketOf_groupAdd_same [DecidableEq K] (g : List (K × List Value)) (k : K) (v : Value) :
    bucketOf (groupAdd g k v) k = bucketOf g k ++ [v] := by
  induction g with
  | nil => simp [groupAdd, bucketOf]
  | cons p rest ih =>
    obtain ⟨k', vs⟩ := p
    by_cases hk : k' = k
    · simp [groupAdd, bucketOf, hk]
    · simp [groupAdd, bucketOf, hk, ih]

/-- Helper for C6: buckets of other keys are unchanged by groupAdd. -/
theorem bucketOf_groupAdd_ne [DecidableEq K] (g : List (K × List Value)) (k k' : K) (v : Value)
    (h : k' ≠ k) : bucketOf (groupAdd g k v) k' = bucketOf g k' := by
  induction g with
  | nil =>
    simp only [groupAdd, bucketOf]
    rw [if_neg (fun hh : k = k' => h hh.symm)]
  | cons p rest ih =>
    obtain ⟨k0, vs⟩ := p
    simp only [groupAdd]
    by_cases hk : k0 = k
    · rw [if_pos hk]
      have hk0 : ¬ k0 = k' := fun hh => h (hh.symm.trans hk)
      simp only [bucketOf, if_neg hk0]
    · rw [if_neg hk]
      by_cases hk' : k0 = k'
      · simp only [bucketOf, if_pos hk']
      · simp only [bucketOf, if_neg hk', ih]

/-- Helper for C6: after folding all pairs in, each key's bucket holds
exactly the elements paired with it, in input order. -/
theorem groupAddAll_bucket [DecidableEq K] (k : K) :
    ∀ (ps : List (K × Value)) (g : List (K × List Value)),
      bucketOf (groupAddAll g ps) k
        = bucketOf g k ++ (ps.filter (fun p => decide (p.1 = k))).map Prod.snd := by
  intro ps
  induction ps with
  | nil => intro g; simp [groupAddAll]
  | cons p rest ih =>
    intro g
    obtain ⟨k0, v0⟩ := p
    have hstep : groupAddAll g ((k0, v0) :: rest) = groupAddAll (groupAdd g k0 v0) rest := rfl
    rw [hstep, ih]
    by_cases hk : k0 = k
    · subst hk
      simp [bucketOf_groupAdd_same, List.filter_cons]
    · rw [bucketOf_groupAdd_ne g k0 k v0 (Ne.symm hk)]
      simp [List.filter_cons, hk]

/-- Helper for C6: a key with a nonempty bucket occurs in the grouped list
with that bucket. -/
theorem mem_of_bucketOf_ne_nil [DecidableEq K] (k : K) :
    ∀ (g : List (K × List Value)), bucketOf g k ≠ [] → (k, bucketOf g k) ∈ g := by
  intro g
  induction g with
  | nil => intro h; simp [bucketOf] at h
  | cons p rest ih =>
    obtain ⟨k', vs⟩ := p
    by_cases hk : k' = k
    · subst hk
      intro _
      simp [bucketOf]
    · intro h
      rw [bucketOf, if_neg hk] at h ⊢
      exact List.mem_cons_of_mem _ (ih h)

/-- Helper for C6: with pairwise-distinct keys, folding the pairs in yields
one singleton bucket per pair, in input order. -/
theorem groupAddAll_of_fresh [DecidableEq K] :
    ∀ (ps : List (K × Value)) (g : List (K × List Value)),
      (ps.map Prod.fst).Nodup → (∀ k ∈ ps.map Prod.fst, k ∉ g.map Prod.fst) →
      groupAddAll g ps = g ++ ps.map (fun p => (p.1, [p.2])) := by
  intro ps
  induction ps with
  | nil => intro g _ _; simp [groupAddAll]
  | cons p rest ih =>
    intro g hnd hfresh
    obtain ⟨k0, v0⟩ := p
    have hstep : groupAddAll g ((k0, v0) :: rest) = groupAddAll (groupAdd g k0 v0) rest := rfl
    simp only [List.map_cons, List.nodup_cons] at hnd
    have hk0 : k0 ∉ g.map Prod.fst := hfresh k0 (by simp)
    rw [hstep, groupAdd_of_not_mem g k0 v0 hk0]
    rw [ih (g ++ [(k0, [v0])]) hnd.2 ?_]
    · simp
    · intro k hk
      simp only [List.map_append, List.mem_append, List.map_cons, List.map_nil,
        List.mem_singleton]
      push_neg
      refine ⟨hfresh k (by simp [hk]), ?_⟩
      intro hkk
      exact hnd.1 (hkk ▸ hk)

/-- Helper for C6: when every element resolves to its key, the grouping loop
succeeds and produces the fold of groupAdd over the key-element pairs. -/
theorem groupPhase_ok [DecidableEq K] (castK : Value → Option K) (fieldName : String) :
    ∀ {slice : List Value} {ks : List K} (g : List (K × List Value)),
      List.Forall₂ (resolvesTo castK fieldName) slice ks →
      groupPhase castK fieldName slice g = some (.ok (groupAddAll g (ks.zip slice))) := by
  intro slice ks g h
  induction h generalizing g with
  | nil => rfl
  | @cons v k rest krest hvk _ ih =>
    obtain ⟨w, hw, hval, hcast⟩ := hvk
    simp only [groupPhase, hw, hval, if_true, hcast]
    exact ih (groupAdd g k v)

/-- Helper for C6: the pairs whose key is k are counted by count over the
keys list. -/
theorem zip_filter_count [DecidableEq K] (k : K) :
    ∀ (ks : List K) (slice : List Value), ks.length = slice.length →
      ((ks.zip slice).filter (fun p => decide (p.1 = k))).length = ks.count k := by
  intro ks
  induction ks with
  | nil => intro slice _; simp
  | cons k0 rest ih =>
    intro slice hlen
    cases slice with
    | nil => simp at hlen
    | cons v vs =>
      simp only [List.length_cons, Nat.add_right_cancel_iff] at hlen
      by_cases hk : k0 = k
      · subst hk
        simp [List.zip_cons_cons, List.filter_cons, List.count_cons, ih vs hlen]
      · simp [List.zip_cons_cons, List.filter_cons, hk, List.count_cons, ih vs hlen]

/-- C6: when every element of the slice resolves through the field path to a
key, GroupBy1By1 fails with the is-not-unique error naming the field path as
soon as any key collects more than one element (equivalently, the key list
has a duplicate), returning no mapping at all; and when every key collects
exactly one element (the keys are pairwise distinct) it returns the mapping
pairing each key with its single element. -/
theorem groupBy1By1_unique_spec [DecidableEq K] (castK : Value → Option K)
    (fieldName : String) (slice : List Value) (ks : List K)
    (hres : List.Forall₂ (resolvesTo castK fieldName) slice ks) :
    (¬ ks.Nodup → GroupBy1By1 castK slice fieldName
        = some (.error ("groupBy: field " ++ fieldName ++ " is not unique")))
    ∧ (ks.Nodup → GroupBy1By1 castK slice fieldName = some (.ok (ks.zip slice))) := by
  have hlen : slice.length = ks.length := hres.length_eq
  have hphase := groupPhase_ok castK fieldName [] hres
  have hkeys : (ks.zip slice).map Prod.fst = ks :=
    List.map_fst_zip ks slice (by omega)
  constructor
  · intro hnd
    rw [List.nodup_iff_count_le_one] at hnd
    push_neg at hnd
    obtain ⟨k, hk⟩ := hnd
    have hbucket := groupAddAll_bucket k (ks.zip slice) []
    have hcnt := zip_filter_count k ks slice hlen.symm
    have hblen : 2 ≤ (bucketOf (groupAddAll [] (ks.zip slice)) k).length := by
      rw [hbucket]
      simp only [bucketOf, List.nil_append, List.length_map]
      omega
    have hmem : (k, bucketOf (groupAddAll [] (ks.zip slice)) k)
        ∈ groupAddAll [] (ks.zip slice) := by
      apply mem_of_bucketOf_ne_nil
      intro hnil
      rw [hnil] at hblen
      simp at hblen
    have hany : (groupAddAll [] (ks.zip slice)).any (fun kv => 1 < kv.2.length) = true := by
      rw [List.any_eq_true]
      exact ⟨_, hmem, by simpa using hblen⟩
    unfold GroupBy1By1
    rw [hphase]
    simp [hany]
  · intro hnd
    have hnd' : ((ks.zip slice).map Prod.fst).Nodup := by rwa [hkeys]
    have hall := groupAddAll_of_fresh (ks.zip slice) [] hnd' (by simp)
    rw [List.nil_append] at hall
    have hany : ((ks.zip slice).map (fun p => (p.1, [p.2]))).any
        (fun kv => 1 < kv.2.length) = false := by
      rw [List.any_eq_false]
      rintro ⟨a, b⟩ hmem
      simp only [List.mem_map] at hmem
      obtain ⟨p, _, hp⟩ := hmem
      cases hp
      simp
    unfold GroupBy1By1
    rw [hphase, hall]
    simp [hany, List.map_map, Function.comp_def]

/-- C6 witness: two records sharing Age 30 — the call fails with the
non-unique error naming the field. -/
theorem groupBy1By1_unique_spec_witness :
    GroupBy1By1 castInt
        [Value.record [("Age", Value.int 30)], Value.record [("Age", Value.int 30)]] "Age"
      = some (.error "groupBy: field Age is not unique") :=
  (groupBy1By1_unique_spec castInt "Age"
      [Value.record [("Age", Value.int 30)], Value.record [("Age", Value.int 30)]] [30, 30]
      (List.Forall₂.cons ⟨Value.int 30, rfl, rfl, rfl⟩
        (List.Forall₂.cons ⟨Value.int 30, rfl, rfl, rfl⟩ List.Forall₂.nil))).1
    (by decide)

/-! Stability of the insertion-sort path of pdqsort: every swap the
insertion sort performs is of two adjacent elements of which the later is
strictly less than the earlier, so any pairwise relation that holds of all
strictly-less pairs is preserved.  The lemmas below make that precise. -/

theorem swapGo_length (d : β) (s : List β) (i j : Nat) :
    (swapGo d s i j).length = s.length := by
  simp [swapGo]

theorem swapAdj_eq (d : β) :
    ∀ (j : Nat) (s : List β), j + 1 < s.length →
      swapGo d s (j + 1) j
        = s.take j ++ idxD d s (j + 1) :: idxD d s j :: s.drop (j + 2) := by
  intro j
  induction j with
  | zero =>
    intro s hs
    match s, hs with
    | x :: y :: t, _ =>
      simp [swapGo, idxD, List.set]
  | succ j ih =>
    intro s hs
    match s, hs with
    | z :: t, hs =>
      have ht : j + 1 < t.length := by simp at hs; omega
      have := ih t ht
      simp only [swapGo, idxD, List.getD_eq_getElem?_getD] at this ⊢
      simp [List.set, List.take_succ_cons, List.drop_succ_cons, this]

theorem split_at_two (d : β) :
    ∀ (j : Nat) (s : List β), j + 1 < s.length →
      s = s.take j ++ idxD d s j :: idxD d s (j + 1) :: s.drop (j + 2) := by
  intro j
  induction j with
  | zero =>
    intro s hs
    match s, hs with
    | x :: y :: t, _ => simp [idxD]
  | succ j ih =>
    intro s hs
    match s, hs with
    | z :: t, hs =>
      have ht : j + 1 < t.length := by simp at hs; omega
      have := ih t ht
      simp only [idxD, List.getD_eq_getElem?_getD] at this ⊢
      simp only [List.take_succ_cons, List.drop_succ_cons, List.getElem?_cons_succ,
        List.cons_append, List.cons.injEq, true_and]
      exact this

theorem pairwise_middle_swap {R : β → β → Prop} {A B : List β} {u v : β}
    (hvu : R v u) (h : List.Pairwise R (A ++ u :: v :: B)) :
    List.Pairwise R (A ++ v :: u :: B) := by
  rw [List.pairwise_append] at h ⊢
  obtain ⟨hA, hUB, hcross⟩ := h
  rw [List.pairwise_cons] at hUB
  obtain ⟨hu, hVB⟩ := hUB
  rw [List.pairwise_cons] at hVB
  obtain ⟨hv, hB⟩ := hVB
  refine ⟨hA, ?_, ?_⟩
  · rw [List.pairwise_cons]
    refine ⟨?_, ?_⟩
    · intro y hy
      rcases List.mem_cons.mp hy with rfl | hy
      · exact hvu
      · exact hv y hy
    · rw [List.pairwise_cons]
      exact ⟨fun y hy => hu y (List.mem_cons_of_mem _ hy), hB⟩
  · intro x hx y hy
    apply hcross x hx
    rcases List.mem_cons.mp hy with rfl | hy
    · exact List.mem_cons_of_mem _ (List.mem_cons_self _ _)
    · rcases List.mem_cons.mp hy with rfl | hy
      · exact List.mem_cons_self _ _
      · exact List.mem_cons_of_mem _ (List.mem_cons_of_mem _ hy)

theorem pairwise_swapAdj {R : β → β → Prop} (less : β → β → Bool) (d : β)
    (hR : ∀ p q, less p q = true → R p q)
    (j : Nat) (s : List β) (hj : j + 1 < s.length)
    (hless : less (idxD d s (j + 1)) (idxD d s j) = true)
    (hP : List.Pairwise R s) : List.Pairwise R (swapGo d s (j + 1) j) := by
  rw [swapAdj_eq d j s hj]
  rw [split_at_two d j s hj] at hP
  exact pairwise_middle_swap (hR _ _ hless) hP

theorem insInner_length (less : β → β → Bool) (d : β) (a : Nat) :
    ∀ (j : Nat) (s : List β), (insInner less d a j s).length = s.length := by
  intro j
  induction j with
  | zero => intro s; rfl
  | succ j ih =>
    intro s
    rw [insInner]
    split
    · rw [ih, swapGo_length]
    · rfl

theorem insInner_pairwise {R : β → β → Prop} (less : β → β → Bool) (d : β) (a : Nat)
    (hR : ∀ p q, less p q = true → R p q) :
    ∀ (j : Nat) (s : List β), j < s.length → List.Pairwise R s →
      List.Pairwise R (insInner less d a j s) := by
  intro j
  induction j with
  | zero => intro s _ hP; exact hP
  | succ j ih =>
    intro s hj hP
    rw [insInner]
    split
    · rename_i hc
      apply ih
      · rw [swapGo_length]; omega
      · exact pairwise_swapAdj less d hR j s hj hc.2 hP
    · exact hP

theorem insLoop_pairwise {R : β → β → Prop} (less : β → β → Bool) (d : β) (a b : Nat)
    (hR : ∀ p q, less p q = true → R p q) :
    ∀ (n i : Nat) (s : List β), b ≤ s.length → List.Pairwise R s →
      List.Pairwise R (insLoop less d a b n i s) := by
  intro n
  induction n with
  | zero => intro i s _ hP; exact hP
  | succ n ih =>
    intro i s hb hP
    rw [insLoop]
    split
    · rename_i hc
      apply ih
      · rw [insInner_length]; exact hb
      · exact insInner_pairwise less d a hR i s (by omega) hP
    · exact hP

theorem insertionSortGo_pairwise {R : β → β → Prop} (less : β → β → Bool) (d : β) (a b : Nat)
    (hR : ∀ p q, less p q = true → R p q) (s : List β) (hb : b ≤ s.length)
    (hP : List.Pairwise R s) : List.Pairwise R (insertionSortGo less d a b s) :=
  insLoop_pairwise less d a b hR (b - a) (a + 1) s hb hP

theorem sortSliceGo_short (less : β → β → Bool) (d : β) (x : List β) (h : x.length ≤ 12) :
    sortSliceGo less d x = insertionSortGo less d 0 x.length x := by
  rw [sortSliceGo, pdqsortGo]
  simp only [Nat.sub_zero]
  rw [if_pos h]

theorem pairwise_fst_lt_enum {α : Type} (l : List α) :
    List.Pairwise (fun p q : Nat × α => p.1 < q.1) l.enum := by
  rw [List.pairwise_iff_getElem]
  intro i j hi hj hij
  simp only [List.enum_length] at hi hj
  simp [List.getElem_enum, hij]

/-- C2 counterexample: on the thirteen-element input ex13, whose tied
elements (equal keys) carry increasing tags, the sorted output reorders the
tied pairs — for keys 1, 5 and 9 the tag-2 copy ends up before the tag-1
copy — so Sort (sort.Slice, pattern-defeating quicksort) is not stable.  The
output is the concrete run of the embedded algorithm: pivot chosen by median
of positions 3, 6 and 9, one Hoare partition with long-range swaps, then
insertion sort of the two sides. -/
theorem sortGo_not_stable_counterexample :
    SortGo (0, 0) ex13 (fun p q => decide (p.1 < q.1))
        = [(0,1),(1,2),(1,1),(2,1),(3,1),(4,1),(5,2),(5,1),(6,1),(7,1),(8,1),(9,2),(9,1)]
      ∧ List.Pairwise (fun p q : Nat × Nat => p.1 = q.1 → p.2 < q.2) ex13
      ∧ ¬ List.Pairwise (fun p q : Nat × Nat => p.1 = q.1 → p.2 < q.2)
          (SortGo (0, 0) ex13 (fun p q => decide (p.1 < q.1))) := by
  refine ⟨rfl, by decide, ?_⟩
  rw [show SortGo (0, 0) ex13 (fun p q => decide (p.1 < q.1))
      = [(0,1),(1,2),(1,1),(2,1),(3,1),(4,1),(5,2),(5,1),(6,1),(7,1),(8,1),(9,2),(9,1)]
    from rfl]
  decide

/-- C2 amended: Sort is stable for sequences of at most twelve elements,
which sort.Slice hands to its insertion sort: tagging each element with its
original index, any two elements the comparator considers tied keep their
index order in the output. -/
theorem sortGo_stable_of_short {α : Type} (dflt : α) (less : α → α → Bool) (l : List α)
    (h : l.length ≤ 12) :
    List.Pairwise
      (fun p q : Nat × α => (less p.2 q.2 = false ∧ less q.2 p.2 = false) → p.1 < q.1)
      (SortGo (0, dflt) l.enum (fun p q => less p.2 q.2)) := by
  show List.Pairwise _ (sortSliceGo _ _ _)
  rw [sortSliceGo_short _ _ _ (by rw [List.enum_length]; exact h)]
  apply insertionSortGo_pairwise
  · intro p q hless htied
    rw [htied.1] at hless
    cases hless
  · exact Nat.le_refl _
  · apply (pairwise_fst_lt_enum l).imp
    intro p q h _
    exact h

/-- C2 amended witness: the spec's stability example, values 5, 5, 3 sorted
ascending with their positions as tags. -/
theorem sortGo_stable_of_short_witness :
    ([5, 5, 3] : List Nat).length ≤ 12
    ∧ List.Pairwise
        (fun p q : Nat × Nat =>
          (decide (p.2 < q.2) = false ∧ decide (q.2 < p.2) = false) → p.1 < q.1)
        (SortGo (0, 0) ([5, 5, 3] : List Nat).enum (fun p q => decide (p.2 < q.2))) :=
  ⟨by decide, sortGo_stable_of_short 0 (fun a b => decide (a < b)) [5, 5, 3] (by decide)⟩

/-- C4 failing input: sort.Slice sorts the caller's slice in place and Sort
returns that same slice, so after Sort([2,1], less-than) the caller's
original slice holds [1,2] — its elements are no longer in their pre-call
order, and the returned container is not a fresh one. -/
theorem sortGo_mutates_input :
    SortGo 0 [2, 1] (fun x y => decide (x < y)) = [1, 2]
      ∧ SortGo 0 [2, 1] (fun x y => decide (x < y)) ≠ [2, 1] :=
  ⟨rfl, by decide⟩


/-! Full functional correctness of the sort embedding: the pattern-defeating
quicksort of Go's sort.Slice permutes the slice within the sorted range and
leaves it weakly sorted under any comparator that is irreflexive, transitive
and weakly transitive in the not-less relation.  The development follows the
Go code loop by loop: insertion sort, heap sort, the two Hoare partition
variants, the partial insertion sort with its left/right shifts, the pivot
selection, the pattern breaker and the reverse-range step, glued by the
pdqsort recursion. -/

section SortCorrectness

variable {β : Type}

theorem idxD_cons_succ (d x : β) (t : List β) (k : Nat) :
    idxD d (x :: t) (k + 1) = idxD d t k := rfl

theorem idxD_cons_zero (d x : β) (t : List β) : idxD d (x :: t) 0 = x := rfl

theorem idxD_eq_getElem (d : β) (s : List β) (k : Nat) (h : k < s.length) :
    idxD d s k = s[k] := by
  simp [idxD, List.getD_eq_getElem?_getD, List.getElem?_eq_getElem h]

theorem headSwap_perm (d x : β) :
    ∀ (t : List β) (j : Nat), j < t.length →
      List.Perm (idxD d t j :: t.set j x) (x :: t) := by
  intro t
  induction t with
  | nil => intro j h; simp at h
  | cons y u ih =>
    intro j hj
    cases j with
    | zero =>
      simp only [idxD_cons_zero, List.set_cons_zero]
      exact List.Perm.swap x y u
    | succ j =>
      have hj' : j < u.length := by simp at hj; omega
      show List.Perm (idxD d u j :: y :: u.set j x) (x :: y :: u)
      exact ((List.Perm.swap _ _ _).trans (((ih j hj').cons y))).trans (List.Perm.swap _ _ _)

theorem swapGo_perm (d : β) :
    ∀ (s : List β) (i j : Nat), i < s.length → j < s.length →
      List.Perm (swapGo d s i j) s := by
  intro s
  induction s with
  | nil => intro i j h; simp at h
  | cons x t ih =>
    intro i j hi hj
    cases i with
    | zero =>
      cases j with
      | zero => simp [swapGo, idxD, List.set]
      | succ j =>
        have hj' : j < t.length := by simp at hj; omega
        show List.Perm (((x :: t).set 0 (idxD d (x :: t) (j + 1))).set (j + 1)
          (idxD d (x :: t) 0)) _
        simp only [idxD_cons_succ, idxD_cons_zero, List.set_cons_zero, List.set_cons_succ]
        exact headSwap_perm d x t j hj'
    | succ i =>
      cases j with
      | zero =>
        have hi' : i < t.length := by simp at hi; omega
        show List.Perm (((x :: t).set (i + 1) (idxD d (x :: t) 0)).set 0
          (idxD d (x :: t) (i + 1))) _
        simp only [idxD_cons_succ, idxD_cons_zero, List.set_cons_succ, List.set_cons_zero]
        exact headSwap_perm d x t i hi'
      | succ j =>
        have hi' : i < t.length := by simp at hi; omega
        have hj' : j < t.length := by simp at hj; omega
        show List.Perm (((x :: t).set (i + 1) (idxD d (x :: t) (j + 1))).set (j + 1)
            (idxD d (x :: t) (i + 1))) _
        simp only [idxD_cons_succ, List.set_cons_succ]
        exact (ih i j hi' hj').cons x

theorem idxD_swapGo (d : β) (s : List β) (i j k : Nat) (hi : i < s.length)
    (hj : j < s.length) :
    idxD d (swapGo d s i j) k
      = if k = j then idxD d s i else if k = i then idxD d s j else idxD d s k := by
  simp only [swapGo, idxD, List.getD_eq_getElem?_getD]
  by_cases hkj : k = j
  · subst hkj
    rw [List.getElem?_set_self (by simp [hj])]
    simp [List.getElem?_eq_getElem hi]
  · rw [List.getElem?_set_ne (fun h => hkj h.symm)]
    by_cases hki : k = i
    · subst hki
      rw [List.getElem?_set_self hi]
      simp [hkj, List.getElem?_eq_getElem hj]
    · rw [List.getElem?_set_ne (fun h => hki h.symm)]
      simp [hkj, hki]

inductive Swaps (d : β) (P : Nat → Prop) : List β → List β → Prop
  | refl (s : List β) : Swaps d P s s
  | step (s t : List β) (i j : Nat) :
      P i → P j → Swaps d P (swapGo d s i j) t → Swaps d P s t

theorem Swaps.length_eq {d : β} {P : Nat → Prop} {s t : List β}
    (h : Swaps d P s t) : t.length = s.length := by
  induction h with
  | refl => rfl
  | step s t i j hi hj _ ih => rw [ih, swapGo_length]

theorem Swaps.trans {d : β} {P : Nat → Prop} {s t u : List β}
    (h1 : Swaps d P s t) (h2 : Swaps d P t u) : Swaps d P s u := by
  induction h1 with
  | refl => exact h2
  | step s t i j hi hj _ ih => exact Swaps.step s u i j hi hj (ih h2)

theorem Swaps.mono {d : β} {P Q : Nat → Prop} {s t : List β}
    (hPQ : ∀ k, P k → Q k) (h : Swaps d P s t) : Swaps d Q s t := by
  induction h with
  | refl => exact Swaps.refl _
  | step s t i j hi hj _ ih => exact Swaps.step s t i j (hPQ i hi) (hPQ j hj) ih

theorem Swaps.perm {d : β} {P : Nat → Prop} {s t : List β}
    (h : Swaps d P s t) (hP : ∀ k, P k → k < s.length) : List.Perm t s := by
  induction h with
  | refl => exact List.Perm.refl _
  | step s t i j hi hj _ ih =>
    have hi' : i < s.length := hP i hi
    have hj' : j < s.length := hP j hj
    have hlen : ∀ k, P k → k < (swapGo d s i j).length := by
      intro k hk; rw [swapGo_length]; exact hP k hk
    exact (ih hlen).trans (swapGo_perm d s i j hi' hj')

theorem Swaps.frame {d : β} {P : Nat → Prop} {s t : List β}
    (h : Swaps d P s t) (hP : ∀ k, P k → k < s.length) :
    ∀ k, ¬ P k → idxD d t k = idxD d s k := by
  induction h with
  | refl => intro k _; rfl
  | step s t i j hi hj _ ih =>
    intro k hk
    have hlen : ∀ m, P m → m < (swapGo d s i j).length := by
      intro m hm; rw [swapGo_length]; exact hP m hm
    rw [ih hlen k hk, idxD_swapGo d s i j k (hP i hi) (hP j hj)]
    rw [if_neg (fun hkj : k = j => hk (by rw [hkj]; exact hj)),
      if_neg (fun hki : k = i => hk (by rw [hki]; exact hi))]

def segOf (s : List β) (a b : Nat) : List β := (s.drop a).take (b - a)

theorem segOf_decomp (s : List β) (a b : Nat) (hab : a ≤ b) (hb : b ≤ s.length) :
    s = s.take a ++ segOf s a b ++ s.drop b := by
  rw [segOf, List.append_assoc]
  have h1 : (s.drop a).take (b - a) ++ s.drop b = s.drop a := by
    have : s.drop b = (s.drop a).drop (b - a) := by
      rw [List.drop_drop]
      congr 1
      omega
    rw [this, List.take_append_drop]
  rw [h1, List.take_append_drop]

theorem take_eq_of_frame {d : β} {s t : List β} (a : Nat) (hlen : t.length = s.length)
    (hfr : ∀ k, k < a → idxD d t k = idxD d s k) : t.take a = s.take a := by
  apply List.ext_getElem
  · simp [hlen]
  · intro n h1 h2
    have hn : n < t.length := by simp at h1; omega
    have hn' : n < s.length := by rw [← hlen]; exact hn
    have hna : n < a := by simp at h1; omega
    rw [List.getElem_take, List.getElem_take]
    rw [← idxD_eq_getElem d t n hn, ← idxD_eq_getElem d s n hn']
    exact hfr n hna

theorem drop_eq_of_frame {d : β} {s t : List β} (b : Nat) (hlen : t.length = s.length)
    (hfr : ∀ k, b ≤ k → idxD d t k = idxD d s k) : t.drop b = s.drop b := by
  apply List.ext_getElem
  · simp [hlen]
  · intro n h1 h2
    have hn : b + n < t.length := by simp at h1; omega
    have hn' : b + n < s.length := by rw [← hlen]; exact hn
    rw [List.getElem_drop, List.getElem_drop]
    rw [← idxD_eq_getElem d t (b + n) hn, ← idxD_eq_getElem d s (b + n) hn']
    exact hfr (b + n) (by omega)

theorem Swaps.seg_perm {d : β} {a b : Nat} {s t : List β}
    (h : Swaps d (fun k => a ≤ k ∧ k < b) s t) (hab : a ≤ b) (hb : b ≤ s.length) :
    List.Perm (segOf t a b) (segOf s a b) := by
  have hP : ∀ k, a ≤ k ∧ k < b → k < s.length := fun k hk => by omega
  have hlen := h.length_eq
  have hperm := h.perm hP
  have hfr := h.frame hP
  have ht : t = t.take a ++ segOf t a b ++ t.drop b :=
    segOf_decomp t a b hab (by omega)
  have hs : s = s.take a ++ segOf s a b ++ s.drop b := segOf_decomp s a b hab hb
  have htake : t.take a = s.take a :=
    take_eq_of_frame a hlen (fun k hk => hfr k (by omega))
  have hdrop : t.drop b = s.drop b :=
    drop_eq_of_frame b hlen (fun k hk => hfr k (by omega))
  rw [ht, hs, htake, hdrop] at hperm
  rw [List.append_assoc, List.append_assoc] at hperm
  have h1 := (List.perm_append_left_iff (s.take a)).mp hperm
  exact (List.perm_append_right_iff (s.drop b)).mp h1

theorem idxD_mem_segOf {d : β} {s : List β} {a b k : Nat} (h1 : a ≤ k) (h2 : k < b)
    (hb : b ≤ s.length) : idxD d s k ∈ segOf s a b := by
  have hk : k < s.length := by omega
  have : k - a < (segOf s a b).length := by
    simp [segOf]
    omega
  have hval : (segOf s a b)[k - a] = s[k] := by
    simp only [segOf]
    rw [List.getElem_take, List.getElem_drop]
    congr 1
    omega
  rw [idxD_eq_getElem d s k hk, ← hval]
  exact List.getElem_mem this

theorem less_asymm {less : β → β → Bool}
    (Hirr : ∀ a, less a a = false)
    (Htrans : ∀ a b c, less a b = true → less b c = true → less a c = true)
    {a b : β} (h : less a b = true) : less b a = false := by
  by_contra hba
  rw [Bool.not_eq_false] at hba
  have := Htrans a b a h hba
  rw [Hirr a] at this
  cases this

theorem wk_trans {less : β → β → Bool}
    (Htrans : ∀ a b c, less a b = true → less b c = true → less a c = true)
    (Hconn : ∀ a b, less a b = false → less b a = false → a = b)
    {a b c : β} (hab : less b a = false) (hbc : less c b = false) :
    less c a = false := by
  by_contra hca
  rw [Bool.not_eq_false] at hca
  cases hbc' : less b c with
  | true =>
    have := Htrans b c a hbc' hca
    rw [hab] at this
    cases this
  | false =>
    have hbc2 := Hconn b c hbc' hbc
    rw [hbc2] at hab
    rw [hab] at hca
    cases hca

def sortedSeg (less : β → β → Bool) (d : β) (s : List β) (a b : Nat) : Prop :=
  ∀ i j, a ≤ i → i < j → j < b → less (idxD d s j) (idxD d s i) = false

theorem sortedSeg_restrict {less : β → β → Bool} {d : β} {s : List β} {a b a' b' : Nat}
    (h : sortedSeg less d s a b) (ha : a ≤ a') (hb : b' ≤ b) :
    sortedSeg less d s a' b' := by
  intro i j h1 h2 h3
  exact h i j (by omega) h2 (by omega)

theorem sortedSeg_of_adjacent {less : β → β → Bool} {d : β}
    (Htrans : ∀ a b c, less a b = true → less b c = true → less a c = true)
    (Hwk : ∀ a b c, less b a = false → less c b = false → less c a = false)
    {s : List β} {a b : Nat}
    (hadj : ∀ k, a < k → k < b → less (idxD d s k) (idxD d s (k - 1)) = false) :
    sortedSeg less d s a b := by
  intro i j h1 h2 h3
  induction j with
  | zero => omega
  | succ j ih =>
    have hstep : less (idxD d s (j + 1)) (idxD d s j) = false := by
      have := hadj (j + 1) (by omega) h3
      simpa using this
    by_cases hij : i = j
    · rw [hij]; exact hstep
    · have hij' : i < j := by omega
      have hj : less (idxD d s j) (idxD d s i) = false := ih hij' (by omega)
      exact Hwk _ _ _ hj hstep

theorem insInner_spec {less : β → β → Bool} {d : β}
    (Hirr : ∀ a, less a a = false)
    (Htrans : ∀ a b c, less a b = true → less b c = true → less a c = true)
    (Hwk : ∀ a b c, less b a = false → less c b = false → less c a = false)
    (a b i0 : Nat) :
    ∀ (j : Nat) (s : List β), a ≤ j → j ≤ i0 → i0 < b → b ≤ s.length →
      sortedSeg less d s a j →
      sortedSeg less d s j (i0 + 1) →
      (∀ p q, a ≤ p → p < j → j < q → q ≤ i0 →
        less (idxD d s q) (idxD d s p) = false) →
      Swaps d (fun k => a ≤ k ∧ k < b) s (insInner less d a j s)
      ∧ sortedSeg less d (insInner less d a j s) a (i0 + 1) := by
  intro j
  induction j with
  | zero =>
    intro s haj hij hib hb hA hB hC
    have ha0 : a = 0 := by omega
    refine ⟨Swaps.refl s, ?_⟩
    rw [show insInner less d a 0 s = s from rfl]
    subst ha0
    exact hB
  | succ j ih =>
    intro s haj hij hib hb hA hB hC
    rw [insInner]
    by_cases hcond : a ≤ j ∧ less (idxD d s (j + 1)) (idxD d s j) = true
    · rw [if_pos hcond]
      obtain ⟨haj', hless⟩ := hcond
      set s' := swapGo d s (j + 1) j with hs'
      have hjb : j + 1 < s.length := by omega
      have hjlt : j < s.length := by omega
      have hidx : ∀ k, idxD d s' k
          = if k = j then idxD d s (j + 1) else if k = j + 1 then idxD d s j
            else idxD d s k := by
        intro k
        rw [hs', idxD_swapGo d s (j + 1) j k hjb hjlt]
      have hb' : b ≤ s'.length := by rw [hs', swapGo_length]; exact hb
      have hvj : idxD d s' j = idxD d s (j + 1) := by
        rw [hidx]; simp
      have hvj1 : idxD d s' (j + 1) = idxD d s j := by
        rw [hidx]
        rw [if_neg (by omega), if_pos rfl]
      have hvo : ∀ k, k ≠ j → k ≠ j + 1 → idxD d s' k = idxD d s k := by
        intro k h1 h2
        rw [hidx, if_neg h1, if_neg h2]
      have hA' : sortedSeg less d s' a j := by
        intro p q h1 h2 h3
        rw [hvo p (by omega) (by omega), hvo q (by omega) (by omega)]
        exact hA p q h1 h2 (by omega)
      have hB' : sortedSeg less d s' j (i0 + 1) := by
        intro p q h1 h2 h3
        by_cases hpj : p = j
        · rw [hpj, hvj]
          by_cases hqj1 : q = j + 1
          · rw [hqj1, hvj1]
            exact less_asymm Hirr Htrans hless
          · rw [hvo q (by omega) hqj1]
            exact hB (j + 1) q (by omega) (by omega) h3
        · by_cases hpj1 : p = j + 1
          · rw [hpj1, hvj1, hvo q (by omega) (by omega)]
            exact hC j q (by omega) (by omega) (by omega) (by omega)
          · rw [hvo p hpj (by omega), hvo q (by omega) (by omega)]
            exact hB p q (by omega) h2 h3
      have hC' : ∀ p q, a ≤ p → p < j → j < q → q ≤ i0 →
          less (idxD d s' q) (idxD d s' p) = false := by
        intro p q h1 h2 h3 h4
        rw [hvo p (by omega) (by omega)]
        by_cases hqj1 : q = j + 1
        · rw [hqj1, hvj1]
          exact hA p j h1 h2 (by omega)
        · rw [hvo q (by omega) hqj1]
          exact hC p q h1 (by omega) (by omega) h4
      have := ih s' haj' (by omega) hib hb' hA' hB' hC'
      refine ⟨?_, this.2⟩
      exact Swaps.step s _ (j + 1) j ⟨by omega, by omega⟩ ⟨by omega, by omega⟩ this.1
    · rw [if_neg hcond]
      refine ⟨Swaps.refl s, ?_⟩
      by_cases haj' : a ≤ j
      · have hless : less (idxD d s (j + 1)) (idxD d s j) = false := by
          rcases Bool.eq_false_or_eq_true (less (idxD d s (j + 1)) (idxD d s j)) with h | h
          · exact absurd ⟨haj', h⟩ hcond
          · exact h
        intro p q h1 h2 h3
        by_cases hq : q < j + 1
        · exact hA p q h1 h2 hq
        · by_cases hp : j + 1 ≤ p
          · exact hB p q (by omega) h2 h3
          · -- p ≤ j < j + 1 ≤ q
            by_cases hqj : q = j + 1
            · subst hqj
              by_cases hpj : p = j
              · rw [hpj]; exact hless
              · have h5 : less (idxD d s j) (idxD d s p) = false :=
                  hA p j h1 (by omega) (by omega)
                exact Hwk _ _ _ h5 hless
            · exact hC p q h1 (by omega) (by omega) (by omega)
      · have hja : j + 1 = a := by omega
        refine sortedSeg_restrict hB (by omega) (by omega)

theorem insLoop_spec {less : β → β → Bool} {d : β}
    (Hirr : ∀ a, less a a = false)
    (Htrans : ∀ a b c, less a b = true → less b c = true → less a c = true)
    (Hwk : ∀ a b c, less b a = false → less c b = false → less c a = false)
    (a b : Nat) :
    ∀ (n i : Nat) (s : List β), a < i → b ≤ i + n → b ≤ s.length →
      sortedSeg less d s a i →
      Swaps d (fun k => a ≤ k ∧ k < b) s (insLoop less d a b n i s)
      ∧ sortedSeg less d (insLoop less d a b n i s) a b := by
  intro n
  induction n with
  | zero =>
    intro i s hai hbi hb hsorted
    exact ⟨Swaps.refl s, sortedSeg_restrict hsorted (by omega) (by omega)⟩
  | succ n ih =>
    intro i s hai hbi hb hsorted
    rw [insLoop]
    by_cases hib : i < b
    · rw [if_pos hib]
      have hinner := insInner_spec Hirr Htrans Hwk a b i i s (by omega) (by omega)
        hib hb hsorted
        (by intro p q h1 h2 h3; omega)
        (by intro p q h1 h2 h3 h4; omega)
      set s' := insInner less d a i s with hs'
      have hlen : s'.length = s.length := by rw [hs', insInner_length]
      have hrec := ih (i + 1) s' (by omega) (by omega) (by omega)
        (sortedSeg_restrict hinner.2 (by omega) (by omega))
      exact ⟨hinner.1.trans hrec.1, hrec.2⟩
    · rw [if_neg hib]
      exact ⟨Swaps.refl s, sortedSeg_restrict hsorted (by omega) (by omega)⟩

theorem insertionSortGo_spec {less : β → β → Bool} {d : β}
    (Hirr : ∀ a, less a a = false)
    (Htrans : ∀ a b c, less a b = true → less b c = true → less a c = true)
    (Hwk : ∀ a b c, less b a = false → less c b = false → less c a = false)
    (a b : Nat) (s : List β) (hb : b ≤ s.length) :
    Swaps d (fun k => a ≤ k ∧ k < b) s (insertionSortGo less d a b s)
    ∧ sortedSeg less d (insertionSortGo less d a b s) a b := by
  apply insLoop_spec Hirr Htrans Hwk a b (b - a) (a + 1) s (by omega) (by omega) hb
  intro i j h1 h2 h3
  omega

theorem partSkipLt_spec (less : β → β → Bool) (d : β) (aIdx : Nat) (s : List β) :
    ∀ (n i j : Nat), j + 1 ≤ i + n → i ≤ j + 1 →
      i ≤ partSkipLt less d aIdx s n i j
      ∧ partSkipLt less d aIdx s n i j ≤ j + 1
      ∧ (∀ k, i ≤ k → k < partSkipLt less d aIdx s n i j →
          less (idxD d s k) (idxD d s aIdx) = true)
      ∧ (partSkipLt less d aIdx s n i j ≤ j →
          less (idxD d s (partSkipLt less d aIdx s n i j)) (idxD d s aIdx) = false) := by
  intro n
  induction n with
  | zero =>
    intro i j hfuel hij
    have : i = j + 1 := by omega
    rw [partSkipLt]
    refine ⟨Nat.le_refl i, by omega, by intro k h1 h2; omega, by omega⟩
  | succ n ih =>
    intro i j hfuel hij
    rw [partSkipLt]
    by_cases hcond : i ≤ j ∧ less (idxD d s i) (idxD d s aIdx) = true
    · rw [if_pos hcond]
      have := ih (i + 1) j (by omega) (by omega)
      refine ⟨by omega, this.2.1, ?_, this.2.2.2⟩
      intro k h1 h2
      by_cases hk : k = i
      · rw [hk]; exact hcond.2
      · exact this.2.2.1 k (by omega) h2
    · rw [if_neg hcond]
      refine ⟨Nat.le_refl i, by omega, by intro k h1 h2; omega, ?_⟩
      intro hle
      rcases Bool.eq_false_or_eq_true (less (idxD d s i) (idxD d s aIdx)) with h | h
      · exact absurd ⟨hle, h⟩ hcond
      · exact h

theorem partSkipGe_spec (less : β → β → Bool) (d : β) (aIdx : Nat) (s : List β) :
    ∀ (n i j : Nat), j + 2 ≤ i + n → 1 ≤ i → i ≤ j + 1 →
      partSkipGe less d aIdx s n i j ≤ j
      ∧ i ≤ partSkipGe less d aIdx s n i j + 1
      ∧ (∀ k, partSkipGe less d aIdx s n i j < k → k ≤ j →
          less (idxD d s k) (idxD d s aIdx) = false)
      ∧ (i ≤ partSkipGe less d aIdx s n i j →
          less (idxD d s (partSkipGe less d aIdx s n i j)) (idxD d s aIdx) = true) := by
  intro n
  induction n with
  | zero =>
    intro i j hfuel hi hij
    omega
  | succ n ih =>
    intro i j hfuel hi hij
    rw [partSkipGe]
    by_cases hcond : i ≤ j ∧ ¬ less (idxD d s j) (idxD d s aIdx) = true
    · rw [if_pos hcond]
      have hj1 : 1 ≤ j := by omega
      have := ih i (j - 1) (by omega) hi (by omega)
      have hstep : j - 1 + 1 = j := by omega
      refine ⟨by omega, this.2.1, ?_, this.2.2.2⟩
      intro k h1 h2
      by_cases hk : k = j
      · rw [hk]
        rw [Bool.not_eq_true] at hcond
        exact hcond.2
      · exact this.2.2.1 k h1 (by omega)
    · rw [if_neg hcond]
      refine ⟨Nat.le_refl j, by omega, by intro k h1 h2; omega, ?_⟩
      intro hle
      rcases Bool.eq_false_or_eq_true (less (idxD d s j) (idxD d s aIdx)) with h | h
      · exact h
      · exact absurd ⟨hle, by simp [h]⟩ hcond

theorem partLoop_spec (less : β → β → Bool) (d : β) (aIdx b : Nat) (pv : β) :
    ∀ (n i j : Nat) (s : List β),
      aIdx < i → i ≤ j + 1 → j < b → b ≤ s.length → j + 2 ≤ i + 2 * n →
      idxD d s aIdx = pv →
      (∀ k, aIdx < k → k < i → less (idxD d s k) pv = true) →
      (∀ k, j < k → k < b → less (idxD d s k) pv = false) →
      Swaps d (fun k => aIdx < k ∧ k < b) s (partLoop less d aIdx b n i j s).2
      ∧ aIdx ≤ (partLoop less d aIdx b n i j s).1
      ∧ (partLoop less d aIdx b n i j s).1 < b
      ∧ idxD d (partLoop less d aIdx b n i j s).2 aIdx = pv
      ∧ (∀ k, aIdx < k → k ≤ (partLoop less d aIdx b n i j s).1 →
          less (idxD d (partLoop less d aIdx b n i j s).2 k) pv = true)
      ∧ (∀ k, (partLoop less d aIdx b n i j s).1 < k → k < b →
          less (idxD d (partLoop less d aIdx b n i j s).2 k) pv = false) := by
  intro n
  induction n with
  | zero =>
    intro i j s h1 h2 h3 h4 hfuel hpv hL hR
    exfalso
    omega
  | succ n ih =>
    intro i j s h1 h2 h3 h4 hfuel hpv hL hR
    rw [partLoop]
    have hsl := partSkipLt_spec less d aIdx s (b + 2) i j (by omega) h2
    set i1 := partSkipLt less d aIdx s (b + 2) i j with hi1
    have hsg := partSkipGe_spec less d aIdx s (b + 2) i1 j (by omega) (by omega) hsl.2.1
    set j1 := partSkipGe less d aIdx s (b + 2) i1 j with hj1
    rw [hpv] at hsl hsg
    by_cases hij : i1 > j1
    · rw [if_pos hij]
      refine ⟨Swaps.refl s, by omega, by omega, hpv, ?_, ?_⟩
      · intro k hk1 hk2
        by_cases hki : k < i
        · exact hL k hk1 hki
        · exact hsl.2.2.1 k (by omega) (by omega)
      · intro k hk1 hk2
        by_cases hkj : k ≤ j
        · exact hsg.2.2.1 k hk1 hkj
        · exact hR k (by omega) hk2
    · rw [if_neg hij]
      have hij' : i1 ≤ j1 := by omega
      have hne : i1 ≠ j1 := by
        intro heq
        have h5 := hsl.2.2.2 (by omega)
        have h6 := hsg.2.2.2 (by omega)
        rw [heq] at h5
        rw [h5] at h6
        cases h6
      have hlt : i1 < j1 := by omega
      set s1 := swapGo d s i1 j1 with hs1
      have hib : i1 < s.length := by omega
      have hjb : j1 < s.length := by omega
      have hidx : ∀ k, idxD d s1 k
          = if k = j1 then idxD d s i1 else if k = i1 then idxD d s j1 else idxD d s k :=
        fun k => idxD_swapGo d s i1 j1 k hib hjb
      have hlen1 : s1.length = s.length := by rw [hs1, swapGo_length]
      have hrec := ih (i1 + 1) (j1 - 1) s1 (by omega) (by omega) (by omega) (by omega)
        (by omega) ?_ ?_ ?_
      · exact ⟨Swaps.step s _ i1 j1 ⟨by omega, by omega⟩ ⟨by omega, by omega⟩ hrec.1,
          hrec.2.1, hrec.2.2.1, hrec.2.2.2.1, hrec.2.2.2.2.1, hrec.2.2.2.2.2⟩
      · rw [hidx aIdx, if_neg (by omega), if_neg (by omega)]
        exact hpv
      · intro k hk1 hk2
        by_cases hki : k = i1
        · rw [hki, hidx i1, if_neg (by omega), if_pos rfl]
          exact hsg.2.2.2 (by omega)
        · rw [hidx k, if_neg (by omega), if_neg hki]
          by_cases hki' : k < i
          · exact hL k hk1 hki'
          · exact hsl.2.2.1 k (by omega) (by omega)
      · intro k hk1 hk2
        by_cases hkj : k = j1
        · rw [hkj, hidx j1, if_pos rfl]
          exact hsl.2.2.2 (by omega)
        · rw [hidx k, if_neg hkj, if_neg (by omega)]
          by_cases hkj' : k ≤ j
          · exact hsg.2.2.1 k (by omega) hkj'
          · exact hR k (by omega) hk2

theorem partitionGo_spec (less : β → β → Bool) (d : β) (a b pivot : Nat) (s : List β)
    (hab : a < b) (hb : b ≤ s.length) (hp1 : a ≤ pivot) (hp2 : pivot < b) :
    Swaps d (fun k => a ≤ k ∧ k < b) s (partitionGo less d a b pivot s).2.2
    ∧ a ≤ (partitionGo less d a b pivot s).1
    ∧ (partitionGo less d a b pivot s).1 < b
    ∧ idxD d (partitionGo less d a b pivot s).2.2 (partitionGo less d a b pivot s).1
        = idxD d s pivot
    ∧ (∀ k, a ≤ k → k < (partitionGo less d a b pivot s).1 →
        less (idxD d (partitionGo less d a b pivot s).2.2 k) (idxD d s pivot) = true)
    ∧ (∀ k, (partitionGo less d a b pivot s).1 < k → k < b →
        less (idxD d (partitionGo less d a b pivot s).2.2 k) (idxD d s pivot) = false) := by
  rw [partitionGo]
  set s0 := swapGo d s a pivot with hs0
  have hlen0 : s0.length = s.length := by rw [hs0, swapGo_length]
  have hpa : pivot < s.length := by omega
  have haa : a < s.length := by omega
  have hidx0 : ∀ k, idxD d s0 k
      = if k = pivot then idxD d s a else if k = a then idxD d s pivot else idxD d s k :=
    fun k => idxD_swapGo d s a pivot k haa hpa
  have hpv0 : idxD d s0 a = idxD d s pivot := by
    rw [hidx0 a]
    by_cases hap : a = pivot
    · rw [if_pos hap, hap]
    · rw [if_neg hap, if_pos rfl]
  have hsl := partSkipLt_spec less d a s0 (b + 2) (a + 1) (b - 1) (by omega) (by omega)
  set i1 := partSkipLt less d a s0 (b + 2) (a + 1) (b - 1) with hi1
  have hsg := partSkipGe_spec less d a s0 (b + 2) i1 (b - 1) (by omega) (by omega) hsl.2.1
  set j1 := partSkipGe less d a s0 (b + 2) i1 (b - 1) with hj1
  rw [hpv0] at hsl hsg
  have hswap0 : Swaps d (fun k => a ≤ k ∧ k < b) s s0 := by
    refine Swaps.step s s0 a pivot ⟨by omega, by omega⟩ ⟨by omega, by omega⟩ ?_
    rw [hs0]
    exact Swaps.refl _
  by_cases hij : i1 > j1
  · rw [if_pos hij]
    simp only
    have hj1a : a ≤ j1 := by omega
    have hj1b : j1 < b := by omega
    have hj1len : j1 < s0.length := by omega
    have halen : a < s0.length := by omega
    have hidx1 : ∀ k, idxD d (swapGo d s0 j1 a) k
        = if k = a then idxD d s0 j1 else if k = j1 then idxD d s0 a else idxD d s0 k :=
      fun k => idxD_swapGo d s0 j1 a k hj1len halen
    refine ⟨?_, hj1a, hj1b, ?_, ?_, ?_⟩
    · refine hswap0.trans (Swaps.step s0 _ j1 a ⟨hj1a, hj1b⟩ ⟨by omega, by omega⟩ ?_)
      exact Swaps.refl _
    · rw [hidx1 j1]
      by_cases hja : j1 = a
      · rw [if_pos hja, hja, hpv0]
      · rw [if_neg hja, if_pos rfl, hpv0]
    · intro k hk1 hk2
      by_cases hka : k = a
      · rw [hka, hidx1 a, if_pos rfl]
        exact hsl.2.2.1 j1 (by omega) (by omega)
      · rw [hidx1 k, if_neg hka, if_neg (by omega)]
        exact hsl.2.2.1 k (by omega) (by omega)
    · intro k hk1 hk2
      rw [hidx1 k, if_neg (by omega), if_neg (by omega)]
      exact hsg.2.2.1 k hk1 (by omega)
  · rw [if_neg hij]
    simp only
    have hij' : i1 ≤ j1 := by omega
    have hne : i1 ≠ j1 := by
      intro heq
      have h5 := hsl.2.2.2 (by omega)
      have h6 := hsg.2.2.2 (by omega)
      rw [heq] at h5
      rw [h5] at h6
      cases h6
    have hlt : i1 < j1 := by omega
    set s1 := swapGo d s0 i1 j1 with hs1
    have hi1len : i1 < s0.length := by omega
    have hj1len : j1 < s0.length := by omega
    have hidx1 : ∀ k, idxD d s1 k
        = if k = j1 then idxD d s0 i1 else if k = i1 then idxD d s0 j1 else idxD d s0 k :=
      fun k => idxD_swapGo d s0 i1 j1 k hi1len hj1len
    have hlen1 : s1.length = s.length := by rw [hs1, swapGo_length, hlen0]
    have hrec := partLoop_spec less d a b (idxD d s pivot) (b + 2) (i1 + 1) (j1 - 1) s1
      (by omega) (by omega) (by omega) (by omega) (by omega) ?_ ?_ ?_
    · set r := partLoop less d a b (b + 2) (i1 + 1) (j1 - 1) s1 with hr
      have hmida : a ≤ r.1 := hrec.2.1
      have hmidb : r.1 < b := hrec.2.2.1
      have hlenr : r.2.length = s1.length := hrec.1.length_eq
      have hmidlen : r.1 < r.2.length := by omega
      have halen : a < r.2.length := by omega
      have hidx2 : ∀ k, idxD d (swapGo d r.2 r.1 a) k
          = if k = a then idxD d r.2 r.1 else if k = r.1 then idxD d r.2 a
            else idxD d r.2 k :=
        fun k => idxD_swapGo d r.2 r.1 a k hmidlen halen
      refine ⟨?_, hmida, hmidb, ?_, ?_, ?_⟩
      · refine hswap0.trans ?_
        refine Swaps.step s0 _ i1 j1 ⟨by omega, by omega⟩ ⟨by omega, by omega⟩ ?_
        rw [← hs1]
        refine (hrec.1.mono (by intro k hk; exact ⟨by omega, hk.2⟩)).trans ?_
        exact Swaps.step r.2 _ r.1 a ⟨hmida, hmidb⟩ ⟨by omega, by omega⟩ (Swaps.refl _)
      · rw [hidx2 r.1]
        by_cases hma : r.1 = a
        · rw [if_pos hma, hma]
          exact hrec.2.2.2.1
        · rw [if_neg hma, if_pos rfl]
          exact hrec.2.2.2.1
      · intro k hk1 hk2
        by_cases hka : k = a
        · rw [hka, hidx2 a, if_pos rfl]
          exact hrec.2.2.2.2.1 r.1 (by omega) (by omega)
        · rw [hidx2 k, if_neg hka, if_neg (by omega)]
          exact hrec.2.2.2.2.1 k (by omega) (by omega)
      · intro k hk1 hk2
        rw [hidx2 k, if_neg (by omega), if_neg (by omega)]
        exact hrec.2.2.2.2.2 k hk1 hk2
    · rw [hidx1 a, if_neg (by omega), if_neg (by omega)]
      exact hpv0
    · intro k hk1 hk2
      by_cases hki : k = i1
      · rw [hki, hidx1 i1, if_neg (by omega), if_pos rfl]
        exact hsg.2.2.2 (by omega)
      · rw [hidx1 k, if_neg (by omega), if_neg hki]
        exact hsl.2.2.1 k (by omega) (by omega)
    · intro k hk1 hk2
      by_cases hkj : k = j1
      · rw [hkj, hidx1 j1, if_pos rfl]
        exact hsl.2.2.2 (by omega)
      · rw [hidx1 k, if_neg hkj, if_neg (by omega)]
        by_cases hkj' : k ≤ b - 1
        · exact hsg.2.2.1 k (by omega) (by omega)
        · omega

theorem peSkipLe_spec (less : β → β → Bool) (d : β) (aIdx : Nat) (s : List β) :
    ∀ (n i j : Nat), j + 1 ≤ i + n → i ≤ j + 1 →
      i ≤ peSkipLe less d aIdx s n i j
      ∧ peSkipLe less d aIdx s n i j ≤ j + 1
      ∧ (∀ k, i ≤ k → k < peSkipLe less d aIdx s n i j →
          less (idxD d s aIdx) (idxD d s k) = false)
      ∧ (peSkipLe less d aIdx s n i j ≤ j →
          less (idxD d s aIdx) (idxD d s (peSkipLe less d aIdx s n i j)) = true) := by
  intro n
  induction n with
  | zero =>
    intro i j hfuel hij
    have : i = j + 1 := by omega
    rw [peSkipLe]
    refine ⟨Nat.le_refl i, by omega, by intro k h1 h2; omega, by omega⟩
  | succ n ih =>
    intro i j hfuel hij
    rw [peSkipLe]
    by_cases hcond : i ≤ j ∧ ¬ less (idxD d s aIdx) (idxD d s i) = true
    · rw [if_pos hcond]
      have := ih (i + 1) j (by omega) (by omega)
      refine ⟨by omega, this.2.1, ?_, this.2.2.2⟩
      intro k h1 h2
      by_cases hk : k = i
      · rw [hk]
        rw [Bool.not_eq_true] at hcond
        exact hcond.2
      · exact this.2.2.1 k (by omega) h2
    · rw [if_neg hcond]
      refine ⟨Nat.le_refl i, by omega, by intro k h1 h2; omega, ?_⟩
      intro hle
      rcases Bool.eq_false_or_eq_true (less (idxD d s aIdx) (idxD d s i)) with h | h
      · exact h
      · exact absurd ⟨hle, by simp [h]⟩ hcond

theorem peSkipGt_spec (less : β → β → Bool) (d : β) (aIdx : Nat) (s : List β) :
    ∀ (n i j : Nat), j + 2 ≤ i + n → 1 ≤ i → i ≤ j + 1 →
      peSkipGt less d aIdx s n i j ≤ j
      ∧ i ≤ peSkipGt less d aIdx s n i j + 1
      ∧ (∀ k, peSkipGt less d aIdx s n i j < k → k ≤ j →
          less (idxD d s aIdx) (idxD d s k) = true)
      ∧ (i ≤ peSkipGt less d aIdx s n i j →
          less (idxD d s aIdx) (idxD d s (peSkipGt less d aIdx s n i j)) = false) := by
  intro n
  induction n with
  | zero =>
    intro i j hfuel hi hij
    omega
  | succ n ih =>
    intro i j hfuel hi hij
    rw [peSkipGt]
    by_cases hcond : i ≤ j ∧ less (idxD d s aIdx) (idxD d s j) = true
    · rw [if_pos hcond]
      have hj1 : 1 ≤ j := by omega
      have := ih i (j - 1) (by omega) hi (by omega)
      refine ⟨by omega, this.2.1, ?_, this.2.2.2⟩
      intro k h1 h2
      by_cases hk : k = j
      · rw [hk]; exact hcond.2
      · exact this.2.2.1 k h1 (by omega)
    · rw [if_neg hcond]
      refine ⟨Nat.le_refl j, by omega, by intro k h1 h2; omega, ?_⟩
      intro hle
      rcases Bool.eq_false_or_eq_true (less (idxD d s aIdx) (idxD d s j)) with h | h
      · exact absurd ⟨hle, h⟩ hcond
      · exact h

theorem peLoop_spec (less : β → β → Bool) (d : β) (aIdx b : Nat) (pv : β) :
    ∀ (n i j : Nat) (s : List β),
      aIdx < i → i ≤ j + 1 → j < b → b ≤ s.length → j + 2 ≤ i + 2 * n →
      idxD d s aIdx = pv →
      (∀ k, aIdx < k → k < i → less pv (idxD d s k) = false) →
      (∀ k, j < k → k < b → less pv (idxD d s k) = true) →
      Swaps d (fun k => aIdx < k ∧ k < b) s (peLoop less d aIdx b n i j s).2
      ∧ aIdx < (peLoop less d aIdx b n i j s).1
      ∧ (peLoop less d aIdx b n i j s).1 ≤ b
      ∧ idxD d (peLoop less d aIdx b n i j s).2 aIdx = pv
      ∧ (∀ k, aIdx < k → k < (peLoop less d aIdx b n i j s).1 →
          less pv (idxD d (peLoop less d aIdx b n i j s).2 k) = false)
      ∧ (∀ k, (peLoop less d aIdx b n i j s).1 ≤ k → k < b →
          less pv (idxD d (peLoop less d aIdx b n i j s).2 k) = true) := by
  intro n
  induction n with
  | zero =>
    intro i j s h1 h2 h3 h4 h5
    omega
  | succ n ih =>
    intro i j s hai hij hjb hb hfuel hpv hL hR
    rw [peLoop]
    have hsl := peSkipLe_spec less d aIdx s (b + 2) i j (by omega) hij
    set i1 := peSkipLe less d aIdx s (b + 2) i j with hi1
    have hsg := peSkipGt_spec less d aIdx s (b + 2) i1 j (by omega) (by omega) hsl.2.1
    set j1 := peSkipGt less d aIdx s (b + 2) i1 j with hj1
    rw [hpv] at hsl hsg
    by_cases hij1 : i1 > j1
    · rw [if_pos hij1]
      simp only
      refine ⟨Swaps.refl s, by omega, by omega, hpv, ?_, ?_⟩
      · intro k hk1 hk2
        by_cases hki : k < i
        · exact hL k hk1 hki
        · exact hsl.2.2.1 k (by omega) hk2
      · intro k hk1 hk2
        by_cases hkj : k ≤ j
        · exact hsg.2.2.1 k (by omega) hkj
        · exact hR k (by omega) hk2
    · rw [if_neg hij1]
      have hij' : i1 ≤ j1 := by omega
      have hne : i1 ≠ j1 := by
        intro heq
        have h5 := hsl.2.2.2 (by omega)
        have h6 := hsg.2.2.2 (by omega)
        rw [heq] at h5
        rw [h5] at h6
        cases h6
      have hlt : i1 < j1 := by omega
      set s1 := swapGo d s i1 j1 with hs1
      have hi1len : i1 < s.length := by omega
      have hj1len : j1 < s.length := by omega
      have hidx1 : ∀ k, idxD d s1 k
          = if k = j1 then idxD d s i1 else if k = i1 then idxD d s j1 else idxD d s k :=
        fun k => idxD_swapGo d s i1 j1 k hi1len hj1len
      have hlen1 : s1.length = s.length := by rw [hs1, swapGo_length]
      have hrec := ih (i1 + 1) (j1 - 1) s1 (by omega) (by omega) (by omega) (by omega)
        (by omega) ?_ ?_ ?_
      · refine ⟨?_, hrec.2.1, hrec.2.2.1, hrec.2.2.2.1, ?_, ?_⟩
        · refine Swaps.step s _ i1 j1 ⟨by omega, by omega⟩ ⟨by omega, by omega⟩ ?_
          rw [← hs1]
          exact hrec.1
        · exact hrec.2.2.2.2.1
        · exact hrec.2.2.2.2.2
      · rw [hidx1 aIdx, if_neg (by omega), if_neg (by omega)]
        exact hpv
      · intro k hk1 hk2
        by_cases hki : k = i1
        · rw [hki, hidx1 i1, if_neg (by omega), if_pos rfl]
          exact hsg.2.2.2 (by omega)
        · rw [hidx1 k, if_neg (by omega), if_neg hki]
          by_cases hki' : k < i
          · exact hL k hk1 hki'
          · exact hsl.2.2.1 k (by omega) (by omega)
      · intro k hk1 hk2
        by_cases hkj : k = j1
        · rw [hkj, hidx1 j1, if_pos rfl]
          exact hsl.2.2.2 (by omega)
        · rw [hidx1 k, if_neg hkj, if_neg (by omega)]
          by_cases hkj' : k ≤ j
          · exact hsg.2.2.1 k (by omega) hkj'
          · exact hR k (by omega) hk2

theorem partitionEqualGo_spec (less : β → β → Bool) (d : β) (a b pivot : Nat) (s : List β)
    (hab : a < b) (hb : b ≤ s.length) (hp1 : a ≤ pivot) (hp2 : pivot < b) :
    Swaps d (fun k => a ≤ k ∧ k < b) s (partitionEqualGo less d a b pivot s).2
    ∧ a < (partitionEqualGo less d a b pivot s).1
    ∧ (partitionEqualGo less d a b pivot s).1 ≤ b
    ∧ idxD d (partitionEqualGo less d a b pivot s).2 a = idxD d s pivot
    ∧ (∀ k, a < k → k < (partitionEqualGo less d a b pivot s).1 →
        less (idxD d s pivot) (idxD d (partitionEqualGo less d a b pivot s).2 k) = false)
    ∧ (∀ k, (partitionEqualGo less d a b pivot s).1 ≤ k → k < b →
        less (idxD d s pivot) (idxD d (partitionEqualGo less d a b pivot s).2 k) = true) := by
  rw [partitionEqualGo]
  set s0 := swapGo d s a pivot with hs0
  have hlen0 : s0.length = s.length := by rw [hs0, swapGo_length]
  have hpa : pivot < s.length := by omega
  have haa : a < s.length := by omega
  have hpv0 : idxD d s0 a = idxD d s pivot := by
    rw [hs0, idxD_swapGo d s a pivot a haa hpa]
    by_cases hap : a = pivot
    · rw [if_pos hap, hap]
    · rw [if_neg hap, if_pos rfl]
  have hmain := peLoop_spec less d a b (idxD d s pivot) (b + 2) (a + 1) (b - 1) s0
    (by omega) (by omega) (by omega) (by omega) (by omega) hpv0
    (by intro k h1 h2; omega) (by intro k h1 h2; omega)
  have hswap0 : Swaps d (fun k => a ≤ k ∧ k < b) s s0 := by
    refine Swaps.step s s0 a pivot ⟨by omega, by omega⟩ ⟨by omega, by omega⟩ ?_
    rw [hs0]
    exact Swaps.refl _
  refine ⟨?_, hmain.2.1, hmain.2.2.1, hmain.2.2.2.1, hmain.2.2.2.2.1, hmain.2.2.2.2.2⟩
  exact hswap0.trans (hmain.1.mono (by intro k hk; exact ⟨by omega, hk.2⟩))

theorem order2Go_mem (less : β → β → Bool) (d : β) (s : List β) (a b sw : Nat) :
    ((order2Go less d s a b sw).1 = a ∨ (order2Go less d s a b sw).1 = b)
    ∧ ((order2Go less d s a b sw).2.1 = a ∨ (order2Go less d s a b sw).2.1 = b) := by
  rw [order2Go]
  by_cases h : less (idxD d s b) (idxD d s a) = true
  · rw [if_pos h]
    exact ⟨Or.inr rfl, Or.inl rfl⟩
  · rw [if_neg h]
    exact ⟨Or.inl rfl, Or.inr rfl⟩

theorem medianGo_mem (less : β → β → Bool) (d : β) (s : List β) (a b c sw : Nat) :
    (medianGo less d s a b c sw).1 = a ∨ (medianGo less d s a b c sw).1 = b
    ∨ (medianGo less d s a b c sw).1 = c := by
  rw [medianGo]
  have h1 := order2Go_mem less d s a b sw
  set t1 := order2Go less d s a b sw with ht1
  have h2 := order2Go_mem less d s t1.2.1 c t1.2.2
  set t2 := order2Go less d s t1.2.1 c t1.2.2 with ht2
  have h3 := order2Go_mem less d s t1.1 t2.1 t2.2.2
  rcases h3.2 with h | h
  · rcases h1.1 with h' | h'
    · rw [h, h']
      exact Or.inl rfl
    · rw [h, h']
      exact Or.inr (Or.inl rfl)
  · rcases h2.1 with h' | h'
    · rcases h1.2 with h'' | h''
      · rw [h, h', h'']
        exact Or.inl rfl
      · rw [h, h', h'']
        exact Or.inr (Or.inl rfl)
    · rw [h, h']
      exact Or.inr (Or.inr rfl)

theorem medianAdjGo_mem (less : β → β → Bool) (d : β) (s : List β) (a sw : Nat) :
    (medianAdjGo less d s a sw).1 = a - 1 ∨ (medianAdjGo less d s a sw).1 = a
    ∨ (medianAdjGo less d s a sw).1 = a + 1 := by
  rw [medianAdjGo]
  exact medianGo_mem less d s (a - 1) a (a + 1) sw

theorem choosePivotGo_bounds (less : β → β → Bool) (d : β) (a b : Nat) (s : List β)
    (hab : a < b) :
    a ≤ (choosePivotGo less d a b s).1 ∧ (choosePivotGo less d a b s).1 < b := by
  simp only [choosePivotGo]
  by_cases h8 : 8 ≤ b - a
  · rw [if_pos h8]
    by_cases h50 : 50 ≤ b - a
    · rw [if_pos h50]
      simp only
      have hp1 := medianAdjGo_mem less d s (a + (b - a) / 4 * 1) 0
      set p1 := medianAdjGo less d s (a + (b - a) / 4 * 1) 0 with hp1d
      have hp2 := medianAdjGo_mem less d s (a + (b - a) / 4 * 2) p1.2
      set p2 := medianAdjGo less d s (a + (b - a) / 4 * 2) p1.2 with hp2d
      have hp3 := medianAdjGo_mem less d s (a + (b - a) / 4 * 3) p2.2
      set p3 := medianAdjGo less d s (a + (b - a) / 4 * 3) p2.2 with hp3d
      have hm := medianGo_mem less d s p1.1 p2.1 p3.1 p3.2
      rcases hm with h | h | h <;> rw [h]
      · rcases hp1 with h' | h' | h' <;> rw [h'] <;> omega
      · rcases hp2 with h' | h' | h' <;> rw [h'] <;> omega
      · rcases hp3 with h' | h' | h' <;> rw [h'] <;> omega
    · rw [if_neg h50]
      simp only
      have hm := medianGo_mem less d s (a + (b - a) / 4 * 1) (a + (b - a) / 4 * 2)
        (a + (b - a) / 4 * 3) 0
      rcases hm with h | h | h <;> rw [h] <;> omega
  · rw [if_neg h8]
    simp only
    omega

theorem revRange_swaps (d : β) (a b : Nat) :
    ∀ (n i j : Nat) (s : List β), a ≤ i → j < b →
      Swaps d (fun k => a ≤ k ∧ k < b) s (revRange d n i j s) := by
  intro n
  induction n with
  | zero => intro i j s h1 h2; exact Swaps.refl s
  | succ n ih =>
    intro i j s h1 h2
    rw [revRange]
    by_cases hij : i < j
    · rw [if_pos hij]
      exact Swaps.step s _ i j ⟨h1, by omega⟩ ⟨by omega, h2⟩ (ih (i + 1) (j - 1) _ (by omega) (by omega))
    · rw [if_neg hij]
      exact Swaps.refl s

theorem reverseRangeGo_swaps (d : β) (a b : Nat) (s : List β) (hab : a < b) :
    Swaps d (fun k => a ≤ k ∧ k < b) s (reverseRangeGo d a b s) := by
  rw [reverseRangeGo]
  exact revRange_swaps d a b (b - a) a (b - 1) s (Nat.le_refl a) (by omega)

theorem bitsLenAux_zero (fuel : Nat) : bitsLenAux fuel 0 = 0 := by
  cases fuel <;> simp [bitsLenAux]

theorem two_pow_bitsLenAux_le :
    ∀ (fuel n : Nat), 1 ≤ n → n ≤ fuel → 2 ^ bitsLenAux fuel n ≤ 2 * n := by
  intro fuel
  induction fuel with
  | zero => intro n h1 h2; omega
  | succ fuel ih =>
    intro n h1 h2
    rw [bitsLenAux, if_neg (by omega)]
    by_cases hn1 : n = 1
    · rw [hn1]
      rw [show (1 : Nat) / 2 = 0 from rfl, bitsLenAux_zero]
      omega
    · have h2' : n / 2 ≤ fuel := by omega
      have hih := ih (n / 2) (by omega) h2'
      have : 2 ^ (bitsLenAux fuel (n / 2) + 1) = 2 * 2 ^ bitsLenAux fuel (n / 2) := by ring
      rw [this]
      omega

theorem nextPowTwo_le (l : Nat) (h : 1 ≤ l) : nextPowTwo l ≤ 2 * l := by
  rw [nextPowTwo, Nat.shiftLeft_eq, one_mul, bitsLen]
  exact two_pow_bitsLenAux_le l l h (Nat.le_refl l)

theorem bpLoop_swaps (d : β) (a b length modulus idxm : Nat)
    (hb : b = a + length) (hlen : 1 ≤ length) (hidxm : a ≤ idxm)
    (hmod : modulus ≤ 2 * length) :
    ∀ (n k r : Nat) (s : List β), idxm + k + n ≤ b →
      Swaps d (fun k => a ≤ k ∧ k < b) s (bpLoop d a length modulus idxm n k r s) := by
  intro n
  induction n with
  | zero => intro k r s h; exact Swaps.refl s
  | succ n ih =>
    intro k r s hkn
    rw [bpLoop]
    have hb0 : xorshiftNext r &&& (modulus - 1) ≤ modulus - 1 := Nat.and_le_right
    have hother : (if length ≤ xorshiftNext r &&& (modulus - 1) then
        (xorshiftNext r &&& (modulus - 1)) - length else xorshiftNext r &&& (modulus - 1))
        < length := by
      by_cases hc : length ≤ xorshiftNext r &&& (modulus - 1)
      · rw [if_pos hc]
        omega
      · rw [if_neg hc]
        omega
    refine Swaps.step s _ (idxm + k)
      (a + (if length ≤ xorshiftNext r &&& (modulus - 1) then
        (xorshiftNext r &&& (modulus - 1)) - length else xorshiftNext r &&& (modulus - 1)))
      ⟨by omega, by omega⟩ ⟨by omega, by omega⟩ ?_
    exact ih (k + 1) (xorshiftNext r) _ (by omega)

theorem breakPatternsGo_swaps (d : β) (a b : Nat) (s : List β) :
    Swaps d (fun k => a ≤ k ∧ k < b) s (breakPatternsGo d a b s) := by
  simp only [breakPatternsGo]
  by_cases h8 : 8 ≤ b - a
  · rw [if_pos h8]
    refine bpLoop_swaps d a b (b - a) (nextPowTwo (b - a)) (a + (b - a) / 4 * 2 - 1 - 1)
      (by omega) (by omega) (by omega) (nextPowTwo_le (b - a) (by omega)) 3 0 (b - a) s
      (by omega)
  · rw [if_neg h8]
    exact Swaps.refl s

theorem mem_segOf_exists (d : β) {s : List β} {a b : Nat} {x : β} (hb : b ≤ s.length)
    (hx : x ∈ segOf s a b) : ∃ k, a ≤ k ∧ k < b ∧ idxD d s k = x := by
  rw [segOf] at hx
  obtain ⟨n, hn, hval⟩ := List.getElem_of_mem hx
  have hn' : n < b - a := by
    have := hn
    simp at this
    omega
  have hna : a + n < s.length := by
    have := hn
    simp at this
    omega
  refine ⟨a + n, by omega, by omega, ?_⟩
  rw [idxD_eq_getElem d s (a + n) hna, ← hval]
  rw [List.getElem_take, List.getElem_drop]

theorem lb_transfer {less : β → β → Bool} {d : β} {s t : List β} {a b : Nat} {v : β}
    (hsw : Swaps d (fun k => a ≤ k ∧ k < b) s t) (hab : a ≤ b) (hb : b ≤ s.length)
    (hLB : ∀ k, a ≤ k → k < b → less (idxD d s k) v = false) :
    ∀ k, a ≤ k → k < b → less (idxD d t k) v = false := by
  intro k h1 h2
  have hlen : t.length = s.length := hsw.length_eq
  have hmem : idxD d t k ∈ segOf t a b := idxD_mem_segOf h1 h2 (by omega)
  have hperm := hsw.seg_perm hab hb
  have hmem' : idxD d t k ∈ segOf s a b := hperm.mem_iff.mp hmem
  obtain ⟨k', hk1, hk2, hk3⟩ := mem_segOf_exists d hb hmem'
  rw [← hk3]
  exact hLB k' hk1 hk2

theorem lb_preserved {less : β → β → Bool} {d : β} {s t : List β} {a b : Nat}
    (hsw : Swaps d (fun k => a ≤ k ∧ k < b) s t) (hab : a ≤ b) (hb : b ≤ s.length)
    (hLB : 0 < a → ∀ k, a ≤ k → k < b → less (idxD d s k) (idxD d s (a - 1)) = false) :
    0 < a → ∀ k, a ≤ k → k < b → less (idxD d t k) (idxD d t (a - 1)) = false := by
  intro ha
  have hfr : idxD d t (a - 1) = idxD d s (a - 1) :=
    hsw.frame (fun k hk => by omega) (a - 1) (by omega)
  rw [hfr]
  exact lb_transfer hsw hab hb (hLB ha)

theorem pisAdvance_spec (less : β → β → Bool) (d : β) (b : Nat) (s : List β) :
    ∀ (n i : Nat), b ≤ i + n → i ≤ b →
      i ≤ pisAdvance less d b s n i
      ∧ pisAdvance less d b s n i ≤ b
      ∧ (∀ k, i ≤ k → k < pisAdvance less d b s n i →
          less (idxD d s k) (idxD d s (k - 1)) = false)
      ∧ (pisAdvance less d b s n i < b →
          less (idxD d s (pisAdvance less d b s n i))
            (idxD d s (pisAdvance less d b s n i - 1)) = true) := by
  intro n
  induction n with
  | zero =>
    intro i hfuel hib
    rw [pisAdvance]
    refine ⟨Nat.le_refl i, hib, by intro k h1 h2; omega, by omega⟩
  | succ n ih =>
    intro i hfuel hib
    rw [pisAdvance]
    by_cases hcond : i < b ∧ ¬ less (idxD d s i) (idxD d s (i - 1)) = true
    · rw [if_pos hcond]
      have := ih (i + 1) (by omega) (by omega)
      refine ⟨by omega, this.2.1, ?_, this.2.2.2⟩
      intro k h1 h2
      by_cases hk : k = i
      · rw [hk]
        rw [Bool.not_eq_true] at hcond
        exact hcond.2
      · exact this.2.2.1 k (by omega) h2
    · rw [if_neg hcond]
      refine ⟨Nat.le_refl i, hib, by intro k h1 h2; omega, ?_⟩
      intro hlt
      rcases Bool.eq_false_or_eq_true (less (idxD d s i) (idxD d s (i - 1))) with h | h
      · exact h
      · exact absurd ⟨hlt, by simp [h]⟩ hcond

theorem shiftLeftGo_spec {less : β → β → Bool} {d : β}
    (Hirr : ∀ a, less a a = false)
    (Htrans : ∀ a b c, less a b = true → less b c = true → less a c = true)
    (Hwk : ∀ a b c, less b a = false → less c b = false → less c a = false)
    (a b i0 : Nat) :
    ∀ (n j : Nat) (s : List β), a ≤ j → j ≤ i0 → i0 < b → b ≤ s.length → j ≤ a + n →
      (0 < a → ∀ k, a ≤ k → k < b → less (idxD d s k) (idxD d s (a - 1)) = false) →
      sortedSeg less d s a j →
      sortedSeg less d s j (i0 + 1) →
      (∀ p q, a ≤ p → p < j → j < q → q ≤ i0 →
        less (idxD d s q) (idxD d s p) = false) →
      Swaps d (fun k => a ≤ k ∧ k < b) s (shiftLeftGo less d n j s)
      ∧ sortedSeg less d (shiftLeftGo less d n j s) a (i0 + 1) := by
  intro n
  induction n with
  | zero =>
    intro j s haj hji hib hb hfuel hLB hA hB hC
    have hja : j = a := by omega
    rw [shiftLeftGo]
    refine ⟨Swaps.refl s, ?_⟩
    rw [hja] at hB
    exact hB
  | succ n ih =>
    intro j s haj hji hib hb hfuel hLB hA hB hC
    rw [shiftLeftGo]
    by_cases h1 : 1 ≤ j
    · rw [if_pos h1]
      by_cases h2 : less (idxD d s j) (idxD d s (j - 1)) = true
      · rw [if_pos h2]
        have haj' : a < j := by
          by_contra hc
          have hja : j = a := by omega
          have ha0 : 0 < a := by omega
          have := hLB ha0 a (Nat.le_refl a) (by omega)
          rw [hja] at h2
          rw [this] at h2
          cases h2
        set s' := swapGo d s j (j - 1) with hs'
        have hjb : j < s.length := by omega
        have hjlt : j - 1 < s.length := by omega
        have hidx : ∀ k, idxD d s' k
            = if k = j - 1 then idxD d s j else if k = j then idxD d s (j - 1)
              else idxD d s k := by
          intro k
          rw [hs', idxD_swapGo d s j (j - 1) k hjb hjlt]
        have hvj1 : idxD d s' (j - 1) = idxD d s j := by
          rw [hidx]; simp
        have hvj : idxD d s' j = idxD d s (j - 1) := by
          rw [hidx, if_neg (by omega), if_pos rfl]
        have hvo : ∀ k, k ≠ j - 1 → k ≠ j → idxD d s' k = idxD d s k := by
          intro k hk1 hk2
          rw [hidx, if_neg hk1, if_neg hk2]
        have hb' : b ≤ s'.length := by rw [hs', swapGo_length]; exact hb
        have hLB' : 0 < a → ∀ k, a ≤ k → k < b →
            less (idxD d s' k) (idxD d s' (a - 1)) = false := by
          have hsw : Swaps d (fun k => a ≤ k ∧ k < b) s s' := by
            refine Swaps.step s s' j (j - 1) ⟨by omega, by omega⟩ ⟨by omega, by omega⟩ ?_
            rw [hs']
            exact Swaps.refl _
          exact lb_preserved hsw (by omega) hb hLB
        have hA' : sortedSeg less d s' a (j - 1) := by
          intro p q hp hq hq2
          rw [hvo p (by omega) (by omega), hvo q (by omega) (by omega)]
          exact hA p q hp hq (by omega)
        have hB' : sortedSeg less d s' (j - 1) (i0 + 1) := by
          intro p q hp hq hq2
          by_cases hpj1 : p = j - 1
          · rw [hpj1, hvj1]
            by_cases hqj : q = j
            · rw [hqj, hvj]
              exact less_asymm Hirr Htrans h2
            · rw [hvo q (by omega) hqj]
              exact hB j q (Nat.le_refl j) (by omega) hq2
          · by_cases hpj : p = j
            · rw [hpj, hvj, hvo q (by omega) (by omega)]
              exact hC (j - 1) q (by omega) (by omega) (by omega) (by omega)
            · rw [hvo p hpj1 hpj, hvo q (by omega) (by omega)]
              exact hB p q (by omega) hq hq2
        have hC' : ∀ p q, a ≤ p → p < j - 1 → j - 1 < q → q ≤ i0 →
            less (idxD d s' q) (idxD d s' p) = false := by
          intro p q hp1 hp2 hq1 hq2
          rw [hvo p (by omega) (by omega)]
          by_cases hqj : q = j
          · rw [hqj, hvj]
            exact hA p (j - 1) hp1 hp2 (by omega)
          · rw [hvo q (by omega) hqj]
            exact hC p q hp1 (by omega) (by omega) hq2
        have hrec := ih (j - 1) s' (by omega) (by omega) hib hb' (by omega) hLB' hA' hB' hC'
        refine ⟨?_, hrec.2⟩
        refine Swaps.step s _ j (j - 1) ⟨by omega, by omega⟩ ⟨by omega, by omega⟩ ?_
        rw [← hs']
        exact hrec.1
      · rw [if_neg h2]
        refine ⟨Swaps.refl s, ?_⟩
        have hless : less (idxD d s j) (idxD d s (j - 1)) = false := by
          rcases Bool.eq_false_or_eq_true (less (idxD d s j) (idxD d s (j - 1))) with h | h
          · exact absurd h h2
          · exact h
        intro p q hp hpq hq
        by_cases hql : q < j
        · exact hA p q hp hpq hql
        · by_cases hpg : j ≤ p
          · exact hB p q hpg hpq hq
          · by_cases hqj : q = j
            · by_cases hpj1 : p = j - 1
              · rw [hqj, hpj1]
                exact hless
              · have h5 : less (idxD d s (j - 1)) (idxD d s p) = false :=
                  hA p (j - 1) hp (by omega) (by omega)
                rw [hqj]
                exact Hwk _ _ _ h5 hless
            · exact hC p q hp (by omega) (by omega) (by omega)
    · rw [if_neg h1]
      have hja : j = a := by omega
      refine ⟨Swaps.refl s, ?_⟩
      rw [hja] at hB
      exact hB

theorem shiftRightGo_spec (less : β → β → Bool) (d : β) (b lo : Nat) :
    ∀ (n j : Nat) (s : List β), lo + 1 ≤ j →
      Swaps d (fun k => lo ≤ k ∧ k < b) s (shiftRightGo less d b n j s) := by
  intro n
  induction n with
  | zero => intro j s h; exact Swaps.refl s
  | succ n ih =>
    intro j s hj
    rw [shiftRightGo]
    by_cases h1 : j < b
    · rw [if_pos h1]
      by_cases h2 : less (idxD d s j) (idxD d s (j - 1)) = true
      · rw [if_pos h2]
        exact Swaps.step s _ j (j - 1) ⟨by omega, h1⟩ ⟨by omega, by omega⟩
          (ih (j + 1) _ (by omega))
      · rw [if_neg h2]
        exact Swaps.refl s
    · rw [if_neg h1]
      exact Swaps.refl s

theorem pisLoop_spec {less : β → β → Bool} {d : β}
    (Hirr : ∀ a, less a a = false)
    (Htrans : ∀ a b c, less a b = true → less b c = true → less a c = true)
    (Hwk : ∀ a b c, less b a = false → less c b = false → less c a = false)
    (a b : Nat) :
    ∀ (n i : Nat) (s : List β), a < i → i ≤ b → b ≤ s.length →
      (0 < a → ∀ k, a ≤ k → k < b → less (idxD d s k) (idxD d s (a - 1)) = false) →
      (∀ k, a < k → k < i → less (idxD d s k) (idxD d s (k - 1)) = false) →
      Swaps d (fun k => a ≤ k ∧ k < b) s (pisLoop less d a b n i s).2
      ∧ ((pisLoop less d a b n i s).1 = true →
          sortedSeg less d (pisLoop less d a b n i s).2 a b) := by
  intro n
  induction n with
  | zero =>
    intro i s hai hib hb hLB hinv
    rw [pisLoop]
    exact ⟨Swaps.refl s, by intro h; cases h⟩
  | succ n ih =>
    intro i s hai hib hb hLB hinv
    rw [pisLoop]
    have hadv := pisAdvance_spec less d b s (b + 1) i (by omega) hib
    set i1 := pisAdvance less d b s (b + 1) i with hi1
    by_cases hi1b : i1 = b
    · rw [if_pos hi1b]
      simp only
      refine ⟨Swaps.refl s, ?_⟩
      intro _
      refine sortedSeg_of_adjacent Htrans Hwk ?_
      intro k hk1 hk2
      by_cases hki : k < i
      · exact hinv k hk1 hki
      · exact hadv.2.2.1 k (by omega) (by omega)
    · rw [if_neg hi1b]
      by_cases hshort : b - a < 50
      · rw [if_pos hshort]
        exact ⟨Swaps.refl s, by intro h; cases h⟩
      · rw [if_neg hshort]
        have hi1lt : i1 < b := by omega
        have hi1a : a < i1 := by omega
        have htrig : less (idxD d s i1) (idxD d s (i1 - 1)) = true := hadv.2.2.2 hi1lt
        have hadj1 : ∀ k, a < k → k < i1 → less (idxD d s k) (idxD d s (k - 1)) = false := by
          intro k h1 h2
          by_cases hki : k < i
          · exact hinv k h1 hki
          · exact hadv.2.2.1 k (by omega) h2
        have hsorted0 : sortedSeg less d s a i1 := sortedSeg_of_adjacent Htrans Hwk hadj1
        set s1 := swapGo d s i1 (i1 - 1) with hs1
        have hi1len : i1 < s.length := by omega
        have hi1len' : i1 - 1 < s.length := by omega
        have hidx1 : ∀ k, idxD d s1 k
            = if k = i1 - 1 then idxD d s i1 else if k = i1 then idxD d s (i1 - 1)
              else idxD d s k := by
          intro k
          rw [hs1, idxD_swapGo d s i1 (i1 - 1) k hi1len hi1len']
        have hvo1 : ∀ k, k ≠ i1 - 1 → k ≠ i1 → idxD d s1 k = idxD d s k := by
          intro k h1 h2
          rw [hidx1, if_neg h1, if_neg h2]
        have hsw01 : Swaps d (fun k => a ≤ k ∧ k < b) s s1 := by
          refine Swaps.step s s1 i1 (i1 - 1) ⟨by omega, by omega⟩ ⟨by omega, by omega⟩ ?_
          rw [hs1]
          exact Swaps.refl _
        have hlen1 : s1.length = s.length := by rw [hs1, swapGo_length]
        have hLB1 := lb_preserved hsw01 (by omega) hb hLB
        set s2 := if 2 ≤ i1 - a then shiftLeftGo less d i1 (i1 - 1) s1 else s1 with hs2
        have hstage2 : Swaps d (fun k => a ≤ k ∧ k < b) s1 s2
            ∧ sortedSeg less d s2 a i1
            ∧ (0 < a → ∀ k, a ≤ k → k < b →
                less (idxD d s2 k) (idxD d s2 (a - 1)) = false) := by
          by_cases hcase : 2 ≤ i1 - a
          · rw [hs2, if_pos hcase]
            have hA : sortedSeg less d s1 a (i1 - 1) := by
              intro p q hp hpq hq
              rw [hvo1 p (by omega) (by omega), hvo1 q (by omega) (by omega)]
              exact hsorted0 p q hp hpq (by omega)
            have hB : sortedSeg less d s1 (i1 - 1) ((i1 - 1) + 1) := by
              intro p q hp hpq hq
              omega
            have hC : ∀ p q, a ≤ p → p < i1 - 1 → i1 - 1 < q → q ≤ i1 - 1 →
                less (idxD d s1 q) (idxD d s1 p) = false := by
              intro p q h1 h2 h3 h4
              omega
            have hres := shiftLeftGo_spec Hirr Htrans Hwk a b (i1 - 1) i1 (i1 - 1) s1
              (by omega) (by omega) (by omega) (by omega) (by omega) hLB1 hA hB hC
            refine ⟨hres.1, ?_, ?_⟩
            · have : i1 - 1 + 1 = i1 := by omega
              rw [this] at hres
              exact hres.2
            · exact lb_preserved hres.1 (by omega) (by omega) hLB1
          · rw [hs2, if_neg hcase]
            have hi1a1 : i1 = a + 1 := by omega
            refine ⟨Swaps.refl s1, ?_, hLB1⟩
            intro p q hp hpq hq
            omega
        set s3 := if 2 ≤ b - i1 then shiftRightGo less d b (b - i1) (i1 + 1) s2 else s2
          with hs3
        have hlen2 : s2.length = s.length := by
          rw [← hlen1]
          exact hstage2.1.length_eq
        have hstage3 : Swaps d (fun k => a ≤ k ∧ k < b) s2 s3
            ∧ (∀ k, k < i1 → idxD d s3 k = idxD d s2 k) := by
          by_cases hcase : 2 ≤ b - i1
          · rw [hs3, if_pos hcase]
            have hres := shiftRightGo_spec less d b i1 (b - i1) (i1 + 1) s2 (by omega)
            refine ⟨hres.mono (by intro k hk; exact ⟨by omega, hk.2⟩), ?_⟩
            intro k hk
            exact hres.frame (by intro m hm; omega) k (by omega)
          · rw [hs3, if_neg hcase]
            exact ⟨Swaps.refl s2, by intro k hk; rfl⟩
        have hsorted3 : sortedSeg less d s3 a i1 := by
          intro p q hp hpq hq
          rw [hstage3.2 p (by omega), hstage3.2 q (by omega)]
          exact hstage2.2.1 p q hp hpq hq
        have hlen3 : s3.length = s.length := by
          rw [← hlen2]
          exact hstage3.1.length_eq
        have hLB3 := lb_preserved hstage3.1 (by omega) (by omega) hstage2.2.2
        have hadj3 : ∀ k, a < k → k < i1 → less (idxD d s3 k) (idxD d s3 (k - 1)) = false := by
          intro k h1 h2
          exact hsorted3 (k - 1) k (by omega) (by omega) h2
        have hrec := ih i1 s3 hi1a (by omega) (by omega) hLB3 hadj3
        refine ⟨?_, hrec.2⟩
        exact hsw01.trans (hstage2.1.trans (hstage3.1.trans hrec.1))

theorem psInsertionSortGo_spec {less : β → β → Bool} {d : β}
    (Hirr : ∀ a, less a a = false)
    (Htrans : ∀ a b c, less a b = true → less b c = true → less a c = true)
    (Hwk : ∀ a b c, less b a = false → less c b = false → less c a = false)
    (a b : Nat) (s : List β) (hab : a < b) (hb : b ≤ s.length)
    (hLB : 0 < a → ∀ k, a ≤ k → k < b → less (idxD d s k) (idxD d s (a - 1)) = false) :
    Swaps d (fun k => a ≤ k ∧ k < b) s (psInsertionSortGo less d a b s).2
    ∧ ((psInsertionSortGo less d a b s).1 = true →
        sortedSeg less d (psInsertionSortGo less d a b s).2 a b) := by
  rw [psInsertionSortGo]
  exact pisLoop_spec Hirr Htrans Hwk a b 5 (a + 1) s (by omega) (by omega) hb hLB
    (by intro k h1 h2; omega)

def heapBelow (less : β → β → Bool) (d : β) (first hi i : Nat) (s : List β) : Prop :=
  ∀ p c, i ≤ p → c < hi → (c = 2 * p + 1 ∨ c = 2 * p + 2) →
    less (idxD d s (first + p)) (idxD d s (first + c)) = false

def heapExcept (less : β → β → Bool) (d : β) (first hi i r : Nat) (s : List β) : Prop :=
  ∀ p c, i ≤ p → c < hi → (c = 2 * p + 1 ∨ c = 2 * p + 2) → p ≠ r →
    less (idxD d s (first + p)) (idxD d s (first + c)) = false

theorem pred_transfer {d : β} {P : β → Prop} {s t : List β} {a b : Nat}
    (hsw : Swaps d (fun k => a ≤ k ∧ k < b) s t) (hab : a ≤ b) (hb : b ≤ s.length)
    (h : ∀ k, a ≤ k → k < b → P (idxD d s k)) :
    ∀ k, a ≤ k → k < b → P (idxD d t k) := by
  intro k h1 h2
  have hlen : t.length = s.length := hsw.length_eq
  have hmem : idxD d t k ∈ segOf t a b := idxD_mem_segOf h1 h2 (by omega)
  have hperm := hsw.seg_perm hab hb
  have hmem' : idxD d t k ∈ segOf s a b := hperm.mem_iff.mp hmem
  obtain ⟨k', hk1, hk2, hk3⟩ := mem_segOf_exists d hb hmem'
  rw [← hk3]
  exact h k' hk1 hk2

theorem siftDownGo_step {less : β → β → Bool} {d : β}
    (Hirr : ∀ a, less a a = false)
    (Htrans : ∀ a b c, less a b = true → less b c = true → less a c = true)
    (Hwk : ∀ a b c, less b a = false → less c b = false → less c a = false)
    (first hi i n r ch : Nat) (s : List β)
    (ih : ∀ (r' : Nat) (s' : List β), i ≤ r' → hi ≤ r' + n → first + hi ≤ s'.length →
      heapExcept less d first hi i r' s' →
      (i < r' → ∀ c, c < hi → (c = 2 * r' + 1 ∨ c = 2 * r' + 2) →
        less (idxD d s' (first + (r' - 1) / 2)) (idxD d s' (first + c)) = false) →
      Swaps d (fun k => first ≤ k ∧ k < first + hi) s' (siftDownGo less d hi first n r' s')
      ∧ heapBelow less d first hi i (siftDownGo less d hi first n r' s'))
    (hir : i ≤ r) (hfuel : hi ≤ r + n + 1) (hlen : first + hi ≤ s.length)
    (hINV : heapExcept less d first hi i r s)
    (hEXTRA : i < r → ∀ c, c < hi → (c = 2 * r + 1 ∨ c = 2 * r + 2) →
      less (idxD d s (first + (r - 1) / 2)) (idxD d s (first + c)) = false)
    (hch : ch = 2 * r + 1 ∨ ch = 2 * r + 2) (hchlt : ch < hi)
    (hdom : ∀ c, c < hi → (c = 2 * r + 1 ∨ c = 2 * r + 2) →
      less (idxD d s (first + ch)) (idxD d s (first + c)) = false) :
    Swaps d (fun k => first ≤ k ∧ k < first + hi) s
      (if less (idxD d s (first + r)) (idxD d s (first + ch)) = true
       then siftDownGo less d hi first n ch (swapGo d s (first + r) (first + ch)) else s)
    ∧ heapBelow less d first hi i
      (if less (idxD d s (first + r)) (idxD d s (first + ch)) = true
       then siftDownGo less d hi first n ch (swapGo d s (first + r) (first + ch)) else s) := by
  have hrlt : r < hi := by omega
  by_cases hswp : less (idxD d s (first + r)) (idxD d s (first + ch)) = true
  · rw [if_pos hswp]
    set s' := swapGo d s (first + r) (first + ch) with hs'
    have hfr : first + r < s.length := by omega
    have hfc : first + ch < s.length := by omega
    have hidx : ∀ k, idxD d s' k
        = if k = first + ch then idxD d s (first + r)
          else if k = first + r then idxD d s (first + ch) else idxD d s k := by
      intro k
      rw [hs', idxD_swapGo d s (first + r) (first + ch) k hfr hfc]
    have hvr : idxD d s' (first + r) = idxD d s (first + ch) := by
      rw [hidx, if_neg (by omega), if_pos rfl]
    have hvc : idxD d s' (first + ch) = idxD d s (first + r) := by
      rw [hidx, if_pos rfl]
    have hvo : ∀ k, k ≠ first + r → k ≠ first + ch → idxD d s' k = idxD d s k := by
      intro k h1 h2
      rw [hidx, if_neg h2, if_neg h1]
    have hINV' : heapExcept less d first hi i ch s' := by
      intro p c hip hc hcc hpch
      by_cases hpr : p = r
      · by_cases hcch : c = ch
        · rw [hpr, hcch, hvr, hvc]
          exact less_asymm Hirr Htrans hswp
        · rw [hpr, hvr, hvo (first + c) (by omega) (by omega)]
          rw [hpr] at hcc
          exact hdom c hc hcc
      · rw [hvo (first + p) (by omega) (by omega)]
        by_cases hcr : c = r
        · have hpp : p = (r - 1) / 2 := by omega
          have hri : i < r := by omega
          rw [hcr, hvr, hpp]
          exact hEXTRA hri ch hchlt hch
        · by_cases hcch : c = ch
          · omega
          · rw [hvo (first + c) (by omega) (by omega)]
            exact hINV p c hip hc hcc hpr
    have hEXTRA' : i < ch → ∀ c', c' < hi → (c' = 2 * ch + 1 ∨ c' = 2 * ch + 2) →
        less (idxD d s' (first + (ch - 1) / 2)) (idxD d s' (first + c')) = false := by
      intro _ c' hc' hcc'
      have hpar : (ch - 1) / 2 = r := by omega
      rw [hpar, hvr, hvo (first + c') (by omega) (by omega)]
      exact hINV ch c' (by omega) hc' hcc' (by omega)
    have hlen' : first + hi ≤ s'.length := by rw [hs', swapGo_length]; exact hlen
    have hres := ih ch s' (by omega) (by omega) hlen' hINV' hEXTRA'
    refine ⟨?_, hres.2⟩
    refine Swaps.step s _ (first + r) (first + ch) ⟨by omega, by omega⟩ ⟨by omega, by omega⟩ ?_
    rw [← hs']
    exact hres.1
  · rw [if_neg hswp]
    have hswf : less (idxD d s (first + r)) (idxD d s (first + ch)) = false := by
      rcases Bool.eq_false_or_eq_true (less (idxD d s (first + r)) (idxD d s (first + ch)))
        with h | h
      · exact absurd h hswp
      · exact h
    refine ⟨Swaps.refl s, ?_⟩
    intro p c hip hc hcc
    by_cases hpr : p = r
    · rw [hpr]
      rw [hpr] at hcc
      exact Hwk _ _ _ (hdom c hc hcc) hswf
    · exact hINV p c hip hc hcc hpr

theorem siftDownGo_spec {less : β → β → Bool} {d : β}
    (Hirr : ∀ a, less a a = false)
    (Htrans : ∀ a b c, less a b = true → less b c = true → less a c = true)
    (Hwk : ∀ a b c, less b a = false → less c b = false → less c a = false)
    (first hi i : Nat) :
    ∀ (n r : Nat) (s : List β), i ≤ r → hi ≤ r + n → first + hi ≤ s.length →
      heapExcept less d first hi i r s →
      (i < r → ∀ c, c < hi → (c = 2 * r + 1 ∨ c = 2 * r + 2) →
        less (idxD d s (first + (r - 1) / 2)) (idxD d s (first + c)) = false) →
      Swaps d (fun k => first ≤ k ∧ k < first + hi) s (siftDownGo less d hi first n r s)
      ∧ heapBelow less d first hi i (siftDownGo less d hi first n r s) := by
  intro n
  induction n with
  | zero =>
    intro r s hir hfuel hlen hINV hEXTRA
    rw [siftDownGo]
    refine ⟨Swaps.refl s, ?_⟩
    intro p c hip hc hcc
    by_cases hpr : p = r
    · omega
    · exact hINV p c hip hc hcc hpr
  | succ n ih =>
    intro r s hir hfuel hlen hINV hEXTRA
    rw [siftDownGo]
    by_cases h0 : hi ≤ 2 * r + 1
    · rw [if_pos h0]
      refine ⟨Swaps.refl s, ?_⟩
      intro p c hip hc hcc
      by_cases hpr : p = r
      · omega
      · exact hINV p c hip hc hcc hpr
    · rw [if_neg h0]
      by_cases hsel : 2 * r + 1 + 1 < hi ∧
          less (idxD d s (first + (2 * r + 1))) (idxD d s (first + (2 * r + 1) + 1)) = true
      · rw [if_pos hsel]
        refine siftDownGo_step Hirr Htrans Hwk first hi i n r (2 * r + 1 + 1) s ih hir
          (by omega) hlen hINV hEXTRA (Or.inr (by omega)) (by omega) ?_
        intro c hc hcc
        rcases hcc with hcc | hcc
        · rw [hcc]
          have he : first + (2 * r + 1) + 1 = first + (2 * r + 1 + 1) := by omega
          rw [← he]
          exact less_asymm Hirr Htrans hsel.2
        · have he : 2 * r + 1 + 1 = c := by omega
          rw [he]
          exact Hirr _
      · rw [if_neg hsel]
        refine siftDownGo_step Hirr Htrans Hwk first hi i n r (2 * r + 1) s ih hir
          (by omega) hlen hINV hEXTRA (Or.inl rfl) (by omega) ?_
        intro c hc hcc
        rcases hcc with hcc | hcc
        · rw [hcc]
          exact Hirr _
        · have hne : less (idxD d s (first + (2 * r + 1)))
              (idxD d s (first + (2 * r + 1) + 1)) = false := by
            rcases Bool.eq_false_or_eq_true (less (idxD d s (first + (2 * r + 1)))
              (idxD d s (first + (2 * r + 1) + 1))) with h | h
            · exact absurd ⟨by omega, h⟩ hsel
            · exact h
          have he : first + (2 * r + 1) + 1 = first + c := by omega
          rw [← he]
          exact hne

theorem heapBuild_spec {less : β → β → Bool} {d : β}
    (Hirr : ∀ a, less a a = false)
    (Htrans : ∀ a b c, less a b = true → less b c = true → less a c = true)
    (Hwk : ∀ a b c, less b a = false → less c b = false → less c a = false)
    (first hi : Nat) :
    ∀ (n : Nat) (s : List β), first + hi ≤ s.length →
      heapBelow less d first hi n s →
      Swaps d (fun k => first ≤ k ∧ k < first + hi) s (heapBuild less d hi first n s)
      ∧ heapBelow less d first hi 0 (heapBuild less d hi first n s) := by
  intro n
  induction n with
  | zero =>
    intro s hlen hyp
    rw [heapBuild]
    exact ⟨Swaps.refl s, hyp⟩
  | succ n ih =>
    intro s hlen hyp
    rw [heapBuild]
    have hsd := siftDownGo_spec Hirr Htrans Hwk first hi n (hi + 1) n s (Nat.le_refl n)
      (by omega) hlen
      (by intro p c h1 h2 h3 h4; exact hyp p c (by omega) h2 h3)
      (by intro h; omega)
    set s' := siftDownGo less d hi first (hi + 1) n s with hs'
    have hlen' : first + hi ≤ s'.length := by
      have := hsd.1.length_eq
      omega
    have hih := ih s' hlen' hsd.2
    exact ⟨hsd.1.trans hih.1, hih.2⟩

theorem heap_root_max {less : β → β → Bool} {d : β}
    (Hirr : ∀ a, less a a = false)
    (Htrans : ∀ a b c, less a b = true → less b c = true → less a c = true)
    (Hwk : ∀ a b c, less b a = false → less c b = false → less c a = false)
    (first hi : Nat) (s : List β)
    (hheap : heapBelow less d first hi 0 s) :
    ∀ q, q < hi → less (idxD d s first) (idxD d s (first + q)) = false := by
  intro q
  induction q using Nat.strong_induction_on with
  | _ q ih =>
    intro hq
    match q with
    | 0 =>
      rw [Nat.add_zero]
      exact Hirr _
    | Nat.succ m =>
      have hpar := hheap (m / 2) (m + 1) (by omega) hq (by omega)
      have hih := ih (m / 2) (by omega) (by omega)
      exact Hwk _ _ _ hpar hih

theorem heapPop_spec {less : β → β → Bool} {d : β}
    (Hirr : ∀ a, less a a = false)
    (Htrans : ∀ a b c, less a b = true → less b c = true → less a c = true)
    (Hwk : ∀ a b c, less b a = false → less c b = false → less c a = false)
    (first hi0 : Nat) :
    ∀ (i : Nat) (s : List β), i ≤ hi0 → first + hi0 ≤ s.length →
      heapBelow less d first i 0 s →
      sortedSeg less d s (first + i) (first + hi0) →
      (∀ p q, p < i → i ≤ q → q < hi0 →
        less (idxD d s (first + q)) (idxD d s (first + p)) = false) →
      Swaps d (fun k => first ≤ k ∧ k < first + hi0) s (heapPop less d first i s)
      ∧ sortedSeg less d (heapPop less d first i s) first (first + hi0) := by
  intro i
  induction i with
  | zero =>
    intro s hle hlen hJ1 hJ2 hJ3
    rw [heapPop]
    refine ⟨Swaps.refl s, ?_⟩
    rw [Nat.add_zero] at hJ2
    exact hJ2
  | succ i ih =>
    intro s hle hlen hJ1 hJ2 hJ3
    rw [heapPop]
    have hroot := heap_root_max Hirr Htrans Hwk first (i + 1) s hJ1
    set s1 := swapGo d s first (first + i) with hs1
    have hf : first < s.length := by omega
    have hfi : first + i < s.length := by omega
    have hidx1 : ∀ k, idxD d s1 k
        = if k = first + i then idxD d s first
          else if k = first then idxD d s (first + i) else idxD d s k := by
      intro k
      rw [hs1, idxD_swapGo d s first (first + i) k hf hfi]
    have hvi : idxD d s1 (first + i) = idxD d s first := by
      rw [hidx1, if_pos rfl]
    have hv0 : idxD d s1 first = idxD d s (first + i) := by
      rw [hidx1]
      by_cases hi0' : first = first + i
      · rw [if_pos hi0', ← hi0']
      · rw [if_neg hi0', if_pos rfl]
    have hvo1 : ∀ k, k ≠ first → k ≠ first + i → idxD d s1 k = idxD d s k := by
      intro k h1 h2
      rw [hidx1, if_neg h2, if_neg h1]
    have hlen1 : s1.length = s.length := by rw [hs1, swapGo_length]
    have hsd := @siftDownGo_spec β less d Hirr Htrans Hwk first i 0 (i + 2) 0 s1
      (Nat.le_refl 0) (by omega) (by omega) ?_ ?_
    · set s2 := siftDownGo less d i first (i + 2) 0 s1 with hs2
      have hlen2 : s2.length = s1.length := hsd.1.length_eq
      have hfr2 : ∀ k, ¬ (first ≤ k ∧ k < first + i) → idxD d s2 k = idxD d s1 k :=
        hsd.1.frame (by intro k hk; omega)
      have hJ2' : sortedSeg less d s2 (first + i) (first + hi0) := by
        intro p q hp hpq hq
        rw [hfr2 p (by omega), hfr2 q (by omega)]
        by_cases hpi : p = first + i
        · rw [hpi, hvi, hvo1 q (by omega) (by omega)]
          have hq' : q = first + (q - first) := by omega
          rw [hq']
          have := hJ3 0 (q - first) (by omega) (by omega) (by omega)
          rw [Nat.add_zero] at this
          exact this
        · rw [hvo1 p (by omega) (by omega), hvo1 q (by omega) (by omega)]
          exact hJ2 p q (by omega) hpq hq
      have hJ3' : ∀ p q, p < i → i ≤ q → q < hi0 →
          less (idxD d s2 (first + q)) (idxD d s2 (first + p)) = false := by
        intro p q hp hq1 hq2
        have hqv : idxD d s2 (first + q) = idxD d s1 (first + q) :=
          hfr2 (first + q) (by omega)
        have hbase : ∀ k, first ≤ k → k < first + i →
            less (idxD d s2 (first + q)) (idxD d s1 k) = false := by
          intro k hk1 hk2
          rw [hqv]
          by_cases hqi : q = i
          · rw [hqi, hvi]
            by_cases hk0 : k = first
            · rw [hk0, hv0]
              exact hroot i (by omega)
            · rw [hvo1 k hk0 (by omega)]
              have hk' : k = first + (k - first) := by omega
              rw [hk']
              exact hroot (k - first) (by omega)
          · rw [hvo1 (first + q) (by omega) (by omega)]
            by_cases hk0 : k = first
            · rw [hk0, hv0]
              exact hJ3 i q (by omega) (by omega) hq2
            · rw [hvo1 k hk0 (by omega)]
              have hk' : k = first + (k - first) := by omega
              rw [hk']
              exact hJ3 (k - first) q (by omega) (by omega) hq2
        exact @pred_transfer β d (fun x => less (idxD d s2 (first + q)) x = false) s1 s2
          first (first + i) hsd.1 (by omega) (by omega) hbase (first + p)
          (by omega) (by omega)
      have hih := ih s2 (by omega) (by omega) hsd.2 hJ2' hJ3'
      refine ⟨?_, hih.2⟩
      refine Swaps.step s _ first (first + i) ⟨by omega, by omega⟩ ⟨by omega, by omega⟩ ?_
      rw [← hs1]
      exact (hsd.1.mono (by intro k hk; exact ⟨hk.1, by omega⟩)).trans hih.1
    · intro p c hip hc hcc hp0
      rw [hvo1 (first + p) (by omega) (by omega), hvo1 (first + c) (by omega) (by omega)]
      exact hJ1 p c (by omega) (by omega) hcc
    · intro h
      omega

theorem heapSortGo_spec {less : β → β → Bool} {d : β}
    (Hirr : ∀ a, less a a = false)
    (Htrans : ∀ a b c, less a b = true → less b c = true → less a c = true)
    (Hwk : ∀ a b c, less b a = false → less c b = false → less c a = false)
    (a b : Nat) (s : List β) (hab : a ≤ b) (hb : b ≤ s.length) :
    Swaps d (fun k => a ≤ k ∧ k < b) s (heapSortGo less d a b s)
    ∧ sortedSeg less d (heapSortGo less d a b s) a b := by
  rw [heapSortGo]
  have hbuild := @heapBuild_spec β less d Hirr Htrans Hwk a (b - a) ((b - a - 1) / 2 + 1) s
    (by omega) (by intro p c h1 h2 h3; omega)
  set s2 := heapBuild less d (b - a) a ((b - a - 1) / 2 + 1) s with hs2
  have hlen2 : s2.length = s.length := hbuild.1.length_eq
  have hpop := heapPop_spec Hirr Htrans Hwk a (b - a) (b - a) s2 (Nat.le_refl (b - a))
    (by omega) hbuild.2
    (by intro p q h1 h2 h3; omega)
    (by intro p q h1 h2 h3; omega)
  have hba : a + (b - a) = b := by omega
  rw [hba] at hpop
  constructor
  · exact (hbuild.1.mono (by intro k hk; exact ⟨hk.1, by omega⟩)).trans
      (hpop.1.mono (by intro k hk; exact hk))
  · exact hpop.2

theorem sorted_glue {less : β → β → Bool} {d : β}
    (Hirr : ∀ a, less a a = false)
    (Htrans : ∀ a b c, less a b = true → less b c = true → less a c = true)
    (a mid b : Nat) (t : List β) (h1 : a ≤ mid) (h2 : mid < b)
    (hsortL : sortedSeg less d t a mid) (hsortR : sortedSeg less d t (mid + 1) b)
    (hL : ∀ k, a ≤ k → k < mid → less (idxD d t k) (idxD d t mid) = true)
    (hR : ∀ k, mid < k → k < b → less (idxD d t k) (idxD d t mid) = false) :
    sortedSeg less d t a b := by
  intro i j hi hij hj
  by_cases hjm : j < mid
  · exact hsortL i j hi hij hjm
  · by_cases him : mid < i
    · exact hsortR i j (by omega) hij hj
    · by_cases hjm' : j = mid
      · rw [hjm']
        exact less_asymm Hirr Htrans (hL i hi (by omega))
      · by_cases him' : i = mid
        · rw [him']
          exact hR j (by omega) hj
        · rcases Bool.eq_false_or_eq_true (less (idxD d t j) (idxD d t i)) with h | h
          · have := Htrans _ _ _ h (hL i hi (by omega))
            rw [hR j (by omega) hj] at this
            cases this
          · exact h

theorem sorted_glue_eq {less : β → β → Bool} {d : β}
    (Htrans : ∀ a b c, less a b = true → less b c = true → less a c = true)
    (Hwk : ∀ a b c, less b a = false → less c b = false → less c a = false)
    (a m b : Nat) (t : List β) (p : β) (h1 : a < m) (h2 : m ≤ b)
    (hsortR : sortedSeg less d t m b)
    (hLeft : ∀ k, a ≤ k → k < m → less p (idxD d t k) = false)
    (hGe : ∀ k, a ≤ k → k < m → less (idxD d t k) p = false)
    (hRight : ∀ k, m ≤ k → k < b → less p (idxD d t k) = true) :
    sortedSeg less d t a b := by
  intro i j hi hij hj
  by_cases hjm : j < m
  · exact Hwk _ _ _ (hLeft i hi (by omega)) (hGe j (by omega) hjm)
  · by_cases him : i < m
    · rcases Bool.eq_false_or_eq_true (less (idxD d t j) (idxD d t i)) with h | h
      · have := Htrans _ _ _ (hRight j (by omega) hj) h
        rw [hLeft i hi him] at this
        cases this
      · exact h
    · exact hsortR i j (by omega) hij hj

theorem pdqsortGo_spec {less : β → β → Bool} {d : β}
    (Hirr : ∀ a, less a a = false)
    (Htrans : ∀ a b c, less a b = true → less b c = true → less a c = true)
    (Hwk : ∀ a b c, less b a = false → less c b = false → less c a = false) :
    ∀ (fuel a b limit : Nat) (wb wp : Bool) (s : List β),
      b ≤ s.length → b - a < fuel →
      (0 < a → ∀ k, a ≤ k → k < b → less (idxD d s k) (idxD d s (a - 1)) = false) →
      Swaps d (fun k => a ≤ k ∧ k < b) s (pdqsortGo less d fuel a b limit wb wp s)
      ∧ sortedSeg less d (pdqsortGo less d fuel a b limit wb wp s) a b := by
  intro fuel
  induction fuel with
  | zero =>
    intro a b limit wb wp s hlen hfuel hLB
    exact absurd hfuel (by omega)
  | succ fuel ih =>
    intro a b limit wb wp s hlen hfuel hLB
    simp only [pdqsortGo]
    by_cases h12 : b - a ≤ 12
    · rw [if_pos h12]
      exact insertionSortGo_spec Hirr Htrans Hwk a b s hlen
    · rw [if_neg h12]
      have hab : a < b := by omega
      by_cases hlim : limit = 0
      · rw [if_pos hlim]
        exact heapSortGo_spec Hirr Htrans Hwk a b s (by omega) hlen
      · rw [if_neg hlim]
        set q1 := if wb = true then (s, limit) else (breakPatternsGo d a b s, limit - 1)
          with hq1
        have hq1Sw : Swaps d (fun k => a ≤ k ∧ k < b) s q1.1 := by
          by_cases hwb : wb = true
          · rw [hq1, if_pos hwb]
            exact Swaps.refl s
          · rw [hq1, if_neg hwb]
            exact breakPatternsGo_swaps d a b s
        have hq1len : q1.1.length = s.length := hq1Sw.length_eq
        have hq1LB := lb_preserved hq1Sw (by omega) (by omega) hLB
        set ph := choosePivotGo less d a b q1.1 with hph
        have hphb : a ≤ ph.1 ∧ ph.1 < b := by
          rw [hph]
          exact choosePivotGo_bounds less d a b q1.1 hab
        set trip := if ph.2 = SortedHint.decreasing
          then (reverseRangeGo d a b q1.1, b - 1 - (ph.1 - a), SortedHint.increasing)
          else (q1.1, ph.1, ph.2) with htrip
        have htripF : Swaps d (fun k => a ≤ k ∧ k < b) q1.1 trip.1
            ∧ a ≤ trip.2.1 ∧ trip.2.1 < b := by
          by_cases hdec : ph.2 = SortedHint.decreasing
          · rw [htrip, if_pos hdec]
            refine ⟨reverseRangeGo_swaps d a b q1.1 hab, ?_, ?_⟩
            · show a ≤ b - 1 - (ph.1 - a)
              omega
            · show b - 1 - (ph.1 - a) < b
              omega
          · rw [htrip, if_neg hdec]
            exact ⟨Swaps.refl _, hphb.1, hphb.2⟩
        have htriplen : trip.1.length = s.length := by
          rw [htripF.1.length_eq, hq1len]
        have htripLB := lb_preserved htripF.1 (by omega) (by omega) hq1LB
        set pis := if wb = true ∧ wp = true ∧ trip.2.2 = SortedHint.increasing
          then psInsertionSortGo less d a b trip.1 else (false, trip.1) with hpis
        have hpisF : Swaps d (fun k => a ≤ k ∧ k < b) trip.1 pis.2
            ∧ (pis.1 = true → sortedSeg less d pis.2 a b) := by
          by_cases hg : wb = true ∧ wp = true ∧ trip.2.2 = SortedHint.increasing
          · rw [hpis, if_pos hg]
            exact psInsertionSortGo_spec Hirr Htrans Hwk a b trip.1 hab (by omega) htripLB
          · rw [hpis, if_neg hg]
            exact ⟨Swaps.refl _, by intro h; cases h⟩
        have hpislen : pis.2.length = s.length := by
          rw [hpisF.1.length_eq, htriplen]
        have hpisLB := lb_preserved hpisF.1 (by omega) (by omega) htripLB
        have hSw0 : Swaps d (fun k => a ≤ k ∧ k < b) s pis.2 :=
          hq1Sw.trans (htripF.1.trans hpisF.1)
        by_cases hpt : pis.1 = true
        · rw [if_pos hpt]
          exact ⟨hSw0, hpisF.2 hpt⟩
        · rw [if_neg hpt]
          by_cases hpe : 0 < a ∧ ¬ less (idxD d pis.2 (a - 1)) (idxD d pis.2 trip.2.1) = true
          · rw [if_pos hpe]
            have hpe2 := partitionEqualGo_spec less d a b trip.2.1 pis.2 hab (by omega)
              htripF.2.1 htripF.2.2
            set ms := partitionEqualGo less d a b trip.2.1 pis.2 with hms
            have hlen_ms : ms.2.length = s.length := by
              rw [hpe2.1.length_eq, hpislen]
            have htrigger : less (idxD d pis.2 (a - 1)) (idxD d pis.2 trip.2.1) = false := by
              rcases Bool.eq_false_or_eq_true
                (less (idxD d pis.2 (a - 1)) (idxD d pis.2 trip.2.1)) with h | h
              · exact absurd h hpe.2
              · exact h
            have hGe0 : ∀ k, a ≤ k → k < b →
                less (idxD d pis.2 k) (idxD d pis.2 trip.2.1) = false := by
              intro k h1 h2
              exact Hwk _ _ _ htrigger (hpisLB hpe.1 k h1 h2)
            have hGe1 : ∀ k, a ≤ k → k < b →
                less (idxD d ms.2 k) (idxD d pis.2 trip.2.1) = false :=
              @pred_transfer β d (fun x => less x (idxD d pis.2 trip.2.1) = false) pis.2 ms.2
                a b hpe2.1 (by omega) (by omega) hGe0
            have hLBms : 0 < ms.1 → ∀ k, ms.1 ≤ k → k < b →
                less (idxD d ms.2 k) (idxD d ms.2 (ms.1 - 1)) = false := by
              intro _ k h1 h2
              rcases Bool.eq_false_or_eq_true
                (less (idxD d ms.2 k) (idxD d ms.2 (ms.1 - 1))) with h | h
              · have hx := Htrans _ _ _ (hpe2.2.2.2.2.2 k h1 h2) h
                by_cases hma : ms.1 - 1 = a
                · rw [hma, hpe2.2.2.2.1, Hirr _] at hx
                  cases hx
                · rw [hpe2.2.2.2.2.1 (ms.1 - 1) (by omega) (by omega)] at hx
                  cases hx
              · exact h
            have hrec := ih ms.1 b q1.2 wb wp ms.2 (by omega) (by omega) hLBms
            have hfr : ∀ k, k < ms.1 →
                idxD d (pdqsortGo less d fuel ms.1 b q1.2 wb wp ms.2) k = idxD d ms.2 k := by
              intro k hk
              exact hrec.1.frame (by intro m hm; omega) k (by omega)
            refine ⟨hSw0.trans (hpe2.1.trans
              (hrec.1.mono (by intro k hk; exact ⟨by omega, hk.2⟩))), ?_⟩
            refine sorted_glue_eq Htrans Hwk a ms.1 b _ (idxD d pis.2 trip.2.1)
              hpe2.2.1 hpe2.2.2.1 hrec.2 ?_ ?_ ?_
            · intro k h1 h2
              rw [hfr k h2]
              by_cases hka : k = a
              · rw [hka, hpe2.2.2.2.1]
                exact Hirr _
              · exact hpe2.2.2.2.2.1 k (by omega) h2
            · intro k h1 h2
              rw [hfr k h2]
              exact hGe1 k h1 (by omega)
            · intro k h1 h2
              refine @pred_transfer β d (fun x => less (idxD d pis.2 trip.2.1) x = true)
                ms.2 _ ms.1 b hrec.1 (by omega) (by omega) ?_ k h1 h2
              intro k' h1' h2'
              exact hpe2.2.2.2.2.2 k' h1' h2'
          · rw [if_neg hpe]
            have hpb := partitionGo_spec less d a b trip.2.1 pis.2 hab (by omega)
              htripF.2.1 htripF.2.2
            set mps := partitionGo less d a b trip.2.1 pis.2 with hmps
            have hlen_t : mps.2.2.length = s.length := by
              rw [hpb.1.length_eq, hpislen]
            have hLBt := lb_preserved hpb.1 (by omega) (by omega) hpisLB
            by_cases hlr : mps.1 - a < b - mps.1
            · rw [if_pos hlr]
              have hLB1 : 0 < a → ∀ k, a ≤ k → k < mps.1 →
                  less (idxD d mps.2.2 k) (idxD d mps.2.2 (a - 1)) = false := by
                intro ha k h1 h2
                exact hLBt ha k h1 (by omega)
              have hrec1 := ih a mps.1 q1.2 true true mps.2.2 (by omega) (by omega) hLB1
              set t1 := pdqsortGo less d fuel a mps.1 q1.2 true true mps.2.2 with ht1
              have hlen1 : t1.length = s.length := by
                rw [hrec1.1.length_eq, hlen_t]
              have hfr1 : ∀ k, ¬ (a ≤ k ∧ k < mps.1) → idxD d t1 k = idxD d mps.2.2 k := by
                intro k hk
                exact hrec1.1.frame (by intro m hm; omega) k hk
              have hLB2 : 0 < mps.1 + 1 → ∀ k, mps.1 + 1 ≤ k → k < b →
                  less (idxD d t1 k) (idxD d t1 (mps.1 + 1 - 1)) = false := by
                intro _ k h1 h2
                have e1 : mps.1 + 1 - 1 = mps.1 := by omega
                rw [e1, hfr1 k (by omega), hfr1 mps.1 (by omega), hpb.2.2.2.1]
                exact hpb.2.2.2.2.2 k (by omega) h2
              have hrec2 := ih (mps.1 + 1) b q1.2
                (decide ((b - a) / 8 ≤ min (mps.1 - a) (b - mps.1))) mps.2.1 t1
                (by omega) (by omega) hLB2
              have hfr2 : ∀ k, ¬ (mps.1 + 1 ≤ k ∧ k < b) →
                  idxD d (pdqsortGo less d fuel (mps.1 + 1) b q1.2
                    (decide ((b - a) / 8 ≤ min (mps.1 - a) (b - mps.1))) mps.2.1 t1) k
                  = idxD d t1 k := by
                intro k hk
                exact hrec2.1.frame (by intro m hm; omega) k hk
              have hmidv : idxD d (pdqsortGo less d fuel (mps.1 + 1) b q1.2
                  (decide ((b - a) / 8 ≤ min (mps.1 - a) (b - mps.1))) mps.2.1 t1) mps.1
                  = idxD d pis.2 trip.2.1 := by
                rw [hfr2 mps.1 (by omega), hfr1 mps.1 (by omega)]
                exact hpb.2.2.2.1
              have hLvals1 : ∀ k, a ≤ k → k < mps.1 →
                  less (idxD d t1 k) (idxD d pis.2 trip.2.1) = true := by
                intro k h1 h2
                refine @pred_transfer β d (fun x => less x (idxD d pis.2 trip.2.1) = true)
                  mps.2.2 t1 a mps.1 hrec1.1 (by omega) (by omega) ?_ k h1 h2
                intro k' h1' h2'
                exact hpb.2.2.2.2.1 k' h1' h2'
              have hmono1 : Swaps d (fun k => a ≤ k ∧ k < b) mps.2.2 t1 :=
                hrec1.1.mono (by intro k hk; exact ⟨hk.1, by omega⟩)
              refine ⟨hSw0.trans (hpb.1.trans (hmono1.trans
                (hrec2.1.mono (by intro k hk; exact ⟨by omega, hk.2⟩)))), ?_⟩
              refine sorted_glue Hirr Htrans a mps.1 b _ hpb.2.1 hpb.2.2.1 ?_ hrec2.2 ?_ ?_
              · intro i j h1 h2 h3
                rw [hfr2 i (by omega), hfr2 j (by omega)]
                exact hrec1.2 i j h1 h2 h3
              · intro k h1 h2
                rw [hmidv, hfr2 k (by omega)]
                exact hLvals1 k h1 h2
              · intro k h1 h2
                rw [hmidv]
                refine @pred_transfer β d (fun x => less x (idxD d pis.2 trip.2.1) = false)
                  t1 _ (mps.1 + 1) b hrec2.1 (by omega) (by omega) ?_ k (by omega) h2
                intro k' h1' h2'
                rw [hfr1 k' (by omega)]
                exact hpb.2.2.2.2.2 k' (by omega) h2'
            · rw [if_neg hlr]
              have hLB1 : 0 < mps.1 + 1 → ∀ k, mps.1 + 1 ≤ k → k < b →
                  less (idxD d mps.2.2 k) (idxD d mps.2.2 (mps.1 + 1 - 1)) = false := by
                intro _ k h1 h2
                have e1 : mps.1 + 1 - 1 = mps.1 := by omega
                rw [e1, hpb.2.2.2.1]
                exact hpb.2.2.2.2.2 k (by omega) h2
              have hrec1 := ih (mps.1 + 1) b q1.2 true true mps.2.2 (by omega) (by omega) hLB1
              set t1 := pdqsortGo less d fuel (mps.1 + 1) b q1.2 true true mps.2.2 with ht1
              have hlen1 : t1.length = s.length := by
                rw [hrec1.1.length_eq, hlen_t]
              have hfr1 : ∀ k, ¬ (mps.1 + 1 ≤ k ∧ k < b) → idxD d t1 k = idxD d mps.2.2 k := by
                intro k hk
                exact hrec1.1.frame (by intro m hm; omega) k hk
              have hLB2 : 0 < a → ∀ k, a ≤ k → k < mps.1 →
                  less (idxD d t1 k) (idxD d t1 (a - 1)) = false := by
                intro ha k h1 h2
                rw [hfr1 k (by omega), hfr1 (a - 1) (by omega)]
                exact hLBt ha k h1 (by omega)
              have hrec2 := ih a mps.1 q1.2
                (decide ((b - a) / 8 ≤ min (mps.1 - a) (b - mps.1))) mps.2.1 t1
                (by omega) (by omega) hLB2
              have hfr2 : ∀ k, ¬ (a ≤ k ∧ k < mps.1) →
                  idxD d (pdqsortGo less d fuel a mps.1 q1.2
                    (decide ((b - a) / 8 ≤ min (mps.1 - a) (b - mps.1))) mps.2.1 t1) k
                  = idxD d t1 k := by
                intro k hk
                exact hrec2.1.frame (by intro m hm; omega) k hk
              have hmidv : idxD d (pdqsortGo less d fuel a mps.1 q1.2
                  (decide ((b - a) / 8 ≤ min (mps.1 - a) (b - mps.1))) mps.2.1 t1) mps.1
                  = idxD d pis.2 trip.2.1 := by
                rw [hfr2 mps.1 (by omega), hfr1 mps.1 (by omega)]
                exact hpb.2.2.2.1
              have hRvals1 : ∀ k, mps.1 < k → k < b →
                  less (idxD d t1 k) (idxD d pis.2 trip.2.1) = false := by
                intro k h1 h2
                refine @pred_transfer β d (fun x => less x (idxD d pis.2 trip.2.1) = false)
                  mps.2.2 t1 (mps.1 + 1) b hrec1.1 (by omega) (by omega) ?_ k (by omega) h2
                intro k' h1' h2'
                exact hpb.2.2.2.2.2 k' (by omega) h2'
              have hmono1 : Swaps d (fun k => a ≤ k ∧ k < b) mps.2.2 t1 :=
                hrec1.1.mono (by intro k hk; exact ⟨by omega, hk.2⟩)
              refine ⟨hSw0.trans (hpb.1.trans (hmono1.trans
                (hrec2.1.mono (by intro k hk; exact ⟨hk.1, by omega⟩)))), ?_⟩
              refine sorted_glue Hirr Htrans a mps.1 b _ hpb.2.1 hpb.2.2.1 hrec2.2 ?_ ?_ ?_
              · intro i j h1 h2 h3
                rw [hfr2 i (by omega), hfr2 j (by omega)]
                exact hrec1.2 i j h1 h2 h3
              · intro k h1 h2
                rw [hmidv]
                refine @pred_transfer β d (fun x => less x (idxD d pis.2 trip.2.1) = true)
                  t1 _ a mps.1 hrec2.1 (by omega) (by omega) ?_ k h1 h2
                intro k' h1' h2'
                rw [hfr1 k' (by omega)]
                exact hpb.2.2.2.2.1 k' h1' h2'
              · intro k h1 h2
                rw [hmidv, hfr2 k (by omega)]
                exact hRvals1 k h1 h2

theorem sortGo_perm_sorted {less : β → β → Bool} {d : β}
    (Hirr : ∀ a, less a a = false)
    (Htrans : ∀ a b c, less a b = true → less b c = true → less a c = true)
    (Hwk : ∀ a b c, less b a = false → less c b = false → less c a = false)
    (x : List β) :
    List.Perm (SortGo d x less) x
    ∧ sortedSeg less d (SortGo d x less) 0 x.length
    ∧ (SortGo d x less).length = x.length := by
  rw [SortGo, sortSliceGo]
  have h := @pdqsortGo_spec β less d Hirr Htrans Hwk (x.length + 1) 0 x.length
    (bitsLen x.length) true true x (Nat.le_refl _) (by omega) (by intro h; omega)
  refine ⟨h.1.perm (by intro k hk; omega), h.2, h.1.length_eq⟩

theorem sortedSeg_pairwise {less : β → β → Bool} {d : β} (u : List β)
    (h : sortedSeg less d u 0 u.length) :
    List.Pairwise (fun x y => less y x = false) u := by
  apply List.pairwise_iff_getElem.mpr
  intro i j hi hj hij
  have hres := h i j (by omega) hij hj
  rw [idxD_eq_getElem d u i (by omega), idxD_eq_getElem d u j hj] at hres
  exact hres

theorem sorted_perm_eq {less : β → β → Bool} :
    ∀ (u v : List β), u.Perm v →
      List.Pairwise (fun x y => less y x = false) u →
      List.Pairwise (fun x y => less y x = false) v →
      (∀ x, x ∈ u → ∀ y, y ∈ u → less x y = false → less y x = false → x = y) →
      u = v := by
  intro u
  induction u with
  | nil =>
    intro v hperm _ _ _
    exact hperm.nil_eq
  | cons a u' ih =>
    intro v hperm hu hv hanti
    cases v with
    | nil =>
      have := hperm.eq_nil
      simp at this
    | cons b v' =>
      rw [List.pairwise_cons] at hu hv
      have hab : a = b := by
        have hav : a ∈ b :: v' := hperm.mem_iff.mp (List.mem_cons_self a u')
        have hbu : b ∈ a :: u' := hperm.mem_iff.mpr (List.mem_cons_self b v')
        rcases List.mem_cons.mp hav with h | h
        · exact h
        · have h1 : less a b = false := hv.1 a h
          rcases List.mem_cons.mp hbu with h' | h'
          · exact h'.symm
          · have h2 : less b a = false := hu.1 b h'
            exact hanti a (List.mem_cons_self a u') b hbu h1 h2
      subst hab
      have hperm' : u'.Perm v' := hperm.cons_inv
      have heq := ih v' hperm' hu.2 hv.2
        (by intro x hx y hy
            exact hanti x (List.mem_cons_of_mem a hx) y (List.mem_cons_of_mem a hy))
      rw [heq]

end SortCorrectness

/-- Model of the Go map read source[key] in MapHashMapToList: the value
stored for the key, or a default when absent (never absent in the modelled
runs, as the keys were collected from the same map). -/
def lookupD [DecidableEq K] : List (K × V) → K → V → V
  | [], _, dv => dv
  | (k', v) :: rest, k, dv => if k' = k then v else lookupD rest k dv

/-- Lexicographic comparison of character lists, structurally recursive so
that concrete comparisons evaluate. -/
def charListLt : List Char → List Char → Bool
  | _, [] => false
  | [], _ :: _ => true
  | a :: as, b :: bs => if a < b then true else if b < a then false else charListLt as bs

/-- Model of the Go string comparison fmt.Sprintf("%v", keys[i]) <
fmt.Sprintf("%v", keys[j]): Go compares strings byte-wise over their UTF-8
encodings, which for valid UTF-8 coincides with lexicographic comparison of
the code point sequences, modelled by charListLt on the characters. -/
def strLt (a b : String) : Bool := charListLt a.data b.data

/-- Model of MapHashMapToList (src/src/utility/higher-order-function-util.go
lines 138-146): collect the keys in the map's iteration order (the order of
the modelling association list), sort them with Sort using the comparator
that compares fmt.Sprintf("%v", key) strings — modelled by the
representation function reprS under strLt — and map
mappingFunc(key, source[key]) over the sorted keys. -/
def MapHashMapToList [DecidableEq K] (reprS : K → String) (dk : K) (dv : V)
    (source : List (K × V)) (mappingFunc : K → V → W) : List W :=
  let keys := source.map Prod.fst
  let sortedKeys := SortGo dk keys (fun x y => strLt (reprS x) (reprS y))
  sortedKeys.map (fun key => mappingFunc key (lookupD source key dv))


/-! Order facts for the string comparator of MapHashMapToList and
uniqueness of the sorted key sequence. -/

theorem charListLt_irrefl : ∀ l : List Char, charListLt l l = false := by
  intro l
  induction l with
  | nil => rfl
  | cons a as ih =>
    rw [charListLt, if_neg (lt_irrefl a), if_neg (lt_irrefl a)]
    exact ih

theorem charListLt_trans :
    ∀ (x y z : List Char), charListLt x y = true → charListLt y z = true →
      charListLt x z = true := by
  intro x
  induction x with
  | nil =>
    intro y z hxy hyz
    cases z with
    | nil =>
      cases y with
      | nil => cases hxy
      | cons b bs => cases hyz
    | cons c cs => rfl
  | cons a as ih =>
    intro y z hxy hyz
    cases y with
    | nil => cases hxy
    | cons b bs =>
      cases z with
      | nil => cases hyz
      | cons c cs =>
        rw [charListLt] at hxy hyz ⊢
        by_cases hab : a < b
        · by_cases hbc : b < c
          · rw [if_pos (lt_trans hab hbc)]
          · rw [if_neg hbc] at hyz
            by_cases hcb : c < b
            · rw [if_pos hcb] at hyz
              cases hyz
            · have hbc' : b = c := le_antisymm (le_of_not_lt hcb) (le_of_not_lt hbc)
              rw [← hbc', if_pos hab]
        · rw [if_neg hab] at hxy
          by_cases hba : b < a
          · rw [if_pos hba] at hxy
            cases hxy
          · have hab' : a = b := le_antisymm (le_of_not_lt hba) (le_of_not_lt hab)
            subst hab'
            rw [if_neg (lt_irrefl a)] at hxy
            by_cases hac : a < c
            · rw [if_pos hac]
            · rw [if_neg hac] at hyz ⊢
              by_cases hca : c < a
              · rw [if_pos hca] at hyz
                cases hyz
              · rw [if_neg hca] at hyz ⊢
                exact ih bs cs hxy hyz

theorem charListLt_conn :
    ∀ (x y : List Char), charListLt x y = false → charListLt y x = false → x = y := by
  intro x
  induction x with
  | nil =>
    intro y hxy _
    cases y with
    | nil => rfl
    | cons b bs => cases hxy
  | cons a as ih =>
    intro y hxy hyx
    cases y with
    | nil => cases hyx
    | cons b bs =>
      rw [charListLt] at hxy hyx
      by_cases hab : a < b
      · rw [if_pos hab] at hxy
        cases hxy
      · by_cases hba : b < a
        · rw [if_pos hba] at hyx
          cases hyx
        · have hab' : a = b := le_antisymm (le_of_not_lt hba) (le_of_not_lt hab)
          rw [if_neg hab, if_neg hba] at hxy
          rw [if_neg hba, if_neg hab] at hyx
          rw [hab', ih bs hxy hyx]

theorem strLt_irrefl (a : String) : strLt a a = false := charListLt_irrefl a.data

theorem strLt_trans (a b c : String) (h1 : strLt a b = true) (h2 : strLt b c = true) :
    strLt a c = true := charListLt_trans a.data b.data c.data h1 h2

theorem strLt_conn (a b : String) (h1 : strLt a b = false) (h2 : strLt b a = false) :
    a = b := by
  have := charListLt_conn a.data b.data h1 h2
  cases a
  cases b
  simp at this
  rw [this]

theorem lookupD_eq_of_mem {K V : Type} [DecidableEq K] :
    ∀ (m : List (K × V)) (k : K) (v dv : V), (m.map Prod.fst).Nodup → (k, v) ∈ m →
      lookupD m k dv = v := by
  intro m
  induction m with
  | nil =>
    intro k v dv _ hmem
    cases hmem
  | cons p rest ih =>
    intro k v dv hnd hmem
    obtain ⟨k', v'⟩ := p
    rw [List.map_cons, List.nodup_cons] at hnd
    rw [lookupD]
    rcases List.mem_cons.mp hmem with h | h
    · have hk : k' = k := by
        have := congrArg Prod.fst h
        exact this.symm
      have hv : v' = v := by
        have := congrArg Prod.snd h
        exact this.symm
      rw [if_pos hk, hv]
    · have hkne : ¬ k' = k := by
        intro he
        apply hnd.1
        rw [he]
        exact List.mem_map.mpr ⟨(k, v), h, rfl⟩
      rw [if_neg hkne]
      exact ih k v dv hnd.2 h

theorem lookupD_perm {K V : Type} [DecidableEq K] (m1 m2 : List (K × V)) (dv : V)
    (hperm : m1.Perm m2) (hnodup : (m1.map Prod.fst).Nodup) :
    ∀ k, k ∈ m1.map Prod.fst → lookupD m1 k dv = lookupD m2 k dv := by
  intro k hk
  obtain ⟨p, hpmem, hpeq⟩ := List.mem_map.mp hk
  obtain ⟨k', v⟩ := p
  have hke : k' = k := hpeq
  subst hke
  have h1 : lookupD m1 k' dv = v := lookupD_eq_of_mem m1 k' v dv hnodup hpmem
  have hnodup2 : (m2.map Prod.fst).Nodup := ((hperm.map Prod.fst).nodup_iff).mp hnodup
  have h2 : lookupD m2 k' dv = v :=
    lookupD_eq_of_mem m2 k' v dv hnodup2 (hperm.mem_iff.mp hpmem)
  rw [h1, h2]

/-- C8 amended: provided the string representations of the mapping's keys are
pairwise distinct, MapHashMapToList first sorts the keys into strictly
ascending string-representation order and then applies the mapping function
in that order, so the output sequence is the same for any two iteration
orders (permutations) of the same mapping — it is uniquely determined by the
key set.  Without that proviso the claim fails (see the counterexample):
keys that tie under the representation comparator keep the map's internal
iteration order. -/
theorem mapHashMapToList_det {K V W : Type} [DecidableEq K] (reprS : K → String)
    (dk : K) (dv : V) (f : K → V → W) (m1 m2 : List (K × V))
    (hperm : m1.Perm m2)
    (hnodup : ((m1.map Prod.fst).map reprS).Nodup) :
    MapHashMapToList reprS dk dv m1 f = MapHashMapToList reprS dk dv m2 f
    ∧ List.Pairwise (fun x y => strLt (reprS x) (reprS y) = true)
        (SortGo dk (m1.map Prod.fst) (fun x y => strLt (reprS x) (reprS y))) := by
  have Hirr : ∀ x : K, (fun x y => strLt (reprS x) (reprS y)) x x = false :=
    fun x => strLt_irrefl _
  have Htrans : ∀ x y z : K, (fun x y => strLt (reprS x) (reprS y)) x y = true →
      (fun x y => strLt (reprS x) (reprS y)) y z = true →
      (fun x y => strLt (reprS x) (reprS y)) x z = true :=
    fun x y z h1 h2 => strLt_trans _ _ _ h1 h2
  have Hwk : ∀ x y z : K, (fun x y => strLt (reprS x) (reprS y)) y x = false →
      (fun x y => strLt (reprS x) (reprS y)) z y = false →
      (fun x y => strLt (reprS x) (reprS y)) z x = false :=
    fun x y z h1 h2 => wk_trans strLt_trans strLt_conn h1 h2
  have hkeynd : (m1.map Prod.fst).Nodup := List.Nodup.of_map reprS hnodup
  have hinj : ∀ x, x ∈ m1.map Prod.fst → ∀ y, y ∈ m1.map Prod.fst →
      reprS x = reprS y → x = y := by
    intro x hx y hy hxy
    exact List.inj_on_of_nodup_map hnodup hx hy hxy
  have hkperm : (m1.map Prod.fst).Perm (m2.map Prod.fst) := hperm.map Prod.fst
  have hs1 := @sortGo_perm_sorted K (fun x y => strLt (reprS x) (reprS y)) dk
    Hirr Htrans Hwk (m1.map Prod.fst)
  have hs2 := @sortGo_perm_sorted K (fun x y => strLt (reprS x) (reprS y)) dk
    Hirr Htrans Hwk (m2.map Prod.fst)
  have hPu : List.Pairwise
      (fun x y => (fun x y => strLt (reprS x) (reprS y)) y x = false)
      (SortGo dk (m1.map Prod.fst) (fun x y => strLt (reprS x) (reprS y))) := by
    refine @sortedSeg_pairwise K (fun x y => strLt (reprS x) (reprS y)) dk _ ?_
    rw [hs1.2.2]
    exact hs1.2.1
  have hPv : List.Pairwise
      (fun x y => (fun x y => strLt (reprS x) (reprS y)) y x = false)
      (SortGo dk (m2.map Prod.fst) (fun x y => strLt (reprS x) (reprS y))) := by
    refine @sortedSeg_pairwise K (fun x y => strLt (reprS x) (reprS y)) dk _ ?_
    rw [hs2.2.2]
    exact hs2.2.1
  have hanti : ∀ x, x ∈ SortGo dk (m1.map Prod.fst) (fun x y => strLt (reprS x) (reprS y)) →
      ∀ y, y ∈ SortGo dk (m1.map Prod.fst) (fun x y => strLt (reprS x) (reprS y)) →
      (fun x y => strLt (reprS x) (reprS y)) x y = false →
      (fun x y => strLt (reprS x) (reprS y)) y x = false → x = y := by
    intro x hx y hy h1 h2
    exact hinj x (hs1.1.mem_iff.mp hx) y (hs1.1.mem_iff.mp hy)
      (strLt_conn _ _ h1 h2)
  have huv : (SortGo dk (m1.map Prod.fst) (fun x y => strLt (reprS x) (reprS y))).Perm
      (SortGo dk (m2.map Prod.fst) (fun x y => strLt (reprS x) (reprS y))) :=
    hs1.1.trans (hkperm.trans hs2.1.symm)
  have hueq := sorted_perm_eq _ _ huv hPu hPv hanti
  constructor
  · simp only [MapHashMapToList]
    rw [← hueq]
    refine List.map_congr_left ?_
    intro k hk
    have hkm : k ∈ m1.map Prod.fst := hs1.1.mem_iff.mp hk
    rw [lookupD_perm m1 m2 dv hperm hkeynd k hkm]
  · have hndu : (SortGo dk (m1.map Prod.fst)
        (fun x y => strLt (reprS x) (reprS y))).Nodup :=
      (hs1.1.nodup_iff).mpr hkeynd
    have hcomb := hPu.and hndu
    refine hcomb.imp_of_mem ?_
    intro x y hx hy hr
    rcases Bool.eq_false_or_eq_true (strLt (reprS x) (reprS y)) with h | h
    · exact h
    · exact absurd (hanti x hx y hy h hr.1) hr.2

/-- C8 amended witness: the two-entry string-keyed mapping in its two
iteration orders, with the identity as the representation function; the
distinct keys have distinct representations, both orders produce the same
output, and the sorted key sequence is strictly ascending. -/
theorem mapHashMapToList_det_witness :
    ([("b", 1), ("a", 2)] : List (String × Nat)).Perm [("a", 2), ("b", 1)]
    ∧ ((([("b", 1), ("a", 2)] : List (String × Nat)).map Prod.fst).map
        (fun s => s)).Nodup
    ∧ (MapHashMapToList (fun s => s) "" 0
          ([("b", 1), ("a", 2)] : List (String × Nat)) (fun _ v => v)
        = MapHashMapToList (fun s => s) "" 0 [("a", 2), ("b", 1)] (fun _ v => v)
      ∧ List.Pairwise
          (fun x y => strLt ((fun s : String => s) x) ((fun s : String => s) y) = true)
          (SortGo "" (([("b", 1), ("a", 2)] : List (String × Nat)).map Prod.fst)
            (fun x y => strLt ((fun s : String => s) x) ((fun s : String => s) y)))) :=
  ⟨by decide, by decide,
    mapHashMapToList_det (fun s => s) "" 0 (fun _ v => v)
      [("b", 1), ("a", 2)] [("a", 2), ("b", 1)] (by decide) (by decide)⟩

/-- Model of fmt.Sprintf("%v", k) for a Go key of type [2]string: fmt prints
arrays as the elements separated by single spaces inside brackets, so two
distinct keys can share one representation. -/
def goReprArr2 : String × String → String :=
  fun p => "[" ++ p.1 ++ " " ++ p.2 ++ "]"

/-- C8 counterexample mapping, one iteration order. -/
def exM1 : List ((String × String) × String) :=
  [(("a b", "c"), "x"), (("a", "b c"), "y")]

/-- C8 counterexample mapping, the other iteration order of the same
key-value set. -/
def exM2 : List ((String × String) × String) :=
  [(("a", "b c"), "y"), (("a b", "c"), "x")]

/-- C8 counterexample: the two association lists exM1 and exM2 are the same
mapping (a permutation of the same key-value pairs), with two distinct
[2]string keys whose fmt representations are both the string bracket a b c
bracket; since the keys tie under the representation comparator, the sorted
key order follows the map's iteration order, and the two iteration orders
produce different output sequences — the output is not uniquely determined
by the key set. -/
theorem mapHashMapToList_order_dependent :
    exM1.Perm exM2
      ∧ goReprArr2 ("a b", "c") = goReprArr2 ("a", "b c")
      ∧ ("a b", "c") ≠ (("a", "b c") : String × String)
      ∧ MapHashMapToList goReprArr2 ("", "") "" exM1 (fun _ v => v) = ["x", "y"]
      ∧ MapHashMapToList goReprArr2 ("", "") "" exM2 (fun _ v => v) = ["y", "x"]
      ∧ (["x", "y"] : List String) ≠ ["y", "x"] := by
  refine ⟨by decide, rfl, by decide, by decide, by decide, by decide⟩
